import Mathlib

/-!
Verification of the transcript normalizer, transcript fetcher and extractive
summarizer of the YouTube-summarizer repository
(src/utils/youtube_utils.py and src/utils/summarizer.py).

All text processing is embedded on the character-list level (a Python str is
modelled as a List Char); top-level functions are wrapped to Lean String so
they mirror the Python signatures.  Regular-expression operations of the
source are embedded as explicit one-pass scanners with the same semantics as
the concrete patterns used there (leftmost, non-overlapping matching).
-/

/-- Whitespace test: models the character class of Python's regex \s and of
str.split() / str.strip() for the ASCII texts this program processes. -/
def isWs (c : Char) : Bool := c.isWhitespace

/-- Sentence-terminator test: the character class [.!?] used by
re.split in clean_transcript and in the summarizer's fallback splitter. -/
def isTerm (c : Char) : Bool := c = '.' || c = '!' || c = '?'

/-- Case folding of a token: models str.lower() (ASCII semantics). -/
def lowerW (w : List Char) : List Char := w.map Char.toLower

/- ### re.sub(r'<[^>]+>', '', transcript)

One-pass scanner.  State none: outside any candidate match.  State some buf:
a '<' has been read and buf (reversed) holds the characters read since then,
none of which is '>'.  A match closes at the first following '>' provided at
least one character lies between (the regex needs one-or-more non-'>'
characters); '<' directly followed by '>' is not a match, and a '<' that is
never closed is emitted verbatim, exactly as re.sub leaves unmatched text. -/
def stripTagsGo : Option (List Char) → List Char → List Char
  | none, [] => []
  | none, c :: rest =>
    if c = '<' then stripTagsGo (some []) rest else c :: stripTagsGo none rest
  | some buf, [] => '<' :: buf.reverse
  | some buf, c :: rest =>
    if c = '>' then
      if buf.isEmpty then '<' :: '>' :: stripTagsGo none rest
      else stripTagsGo none rest
    else stripTagsGo (some (c :: buf)) rest

/-- Removal of all angle-bracket spans: re.sub(r'<[^>]+>', '', t). -/
def stripTags (cs : List Char) : List Char := stripTagsGo none cs

/- ### re.sub(r'<\d{2}:\d{2}:\d{2}\.\d+>', '', transcript)

The character expected at offset n (counted from just after the '<') of the
timestamp pattern \d{2}:\d{2}:\d{2}\.\d+ . -/
def tsExpect (n : Nat) (c : Char) : Bool :=
  match n with
  | 0 | 1 | 3 | 4 | 6 | 7 => c.isDigit
  | 2 | 5 => c = ':'
  | 8 => c = '.'
  | _ => c.isDigit

/-- Scanner for the timestamp regex.  State some buf: a '<' has been read and
buf (reversed) matches the first buf.length characters of the pattern; the
match closes at '>' once the fixed part and at least one final digit are
consumed (offset at least 10).  On a mismatching character the span is
emitted verbatim and scanning resumes at that character, which mirrors how
the regex engine advances after a failed match attempt (no character of the
aborted span other than the current one can start a new match, because the
buffered characters are digits, colons and dots). -/
def stripTsGo : Option (List Char) → List Char → List Char
  | none, [] => []
  | none, c :: rest =>
    if c = '<' then stripTsGo (some []) rest else c :: stripTsGo none rest
  | some buf, [] => '<' :: buf.reverse
  | some buf, c :: rest =>
    if c = '>' && decide (10 ≤ buf.length) then stripTsGo none rest
    else if tsExpect buf.length c then stripTsGo (some (c :: buf)) rest
    else if c = '<' then ('<' :: buf.reverse) ++ stripTsGo (some []) rest
    else ('<' :: buf.reverse) ++ c :: stripTsGo none rest

/-- Removal of timestamp spans: re.sub(r'<\d{2}:\d{2}:\d{2}\.\d+>', '', t). -/
def stripTs (cs : List Char) : List Char := stripTsGo none cs

/- ### re.sub(r'\s+', ' ', s) and re.sub(r'\.+', '.', s) -/

/-- Scanner for re.sub(r'\s+', ' ', s): every maximal whitespace run is
replaced by a single space.  inRun records whether the previous character
belonged to a whitespace run whose replacement was already emitted. -/
def collapseWsGo (inRun : Bool) : List Char → List Char
  | [] => []
  | c :: rest =>
    if isWs c then
      if inRun then collapseWsGo true rest else ' ' :: collapseWsGo true rest
    else c :: collapseWsGo false rest

/-- re.sub(r'\s+', ' ', s). -/
def collapseWs (cs : List Char) : List Char := collapseWsGo false cs

/-- Scanner for re.sub(r'\.+', '.', s): every maximal run of dots is
replaced by a single dot. -/
def collapseDotsGo (inRun : Bool) : List Char → List Char
  | [] => []
  | c :: rest =>
    if c = '.' then
      if inRun then collapseDotsGo true rest else '.' :: collapseDotsGo true rest
    else c :: collapseDotsGo false rest

/-- re.sub(r'\.+', '.', s). -/
def collapseDots (cs : List Char) : List Char := collapseDotsGo false cs

/- ### str.strip() -/

/-- str.strip(): drop leading and trailing whitespace. -/
def trimChars (cs : List Char) : List Char :=
  ((cs.dropWhile isWs).reverse.dropWhile isWs).reverse

/- ### re.split(pattern-run, s)

re.split(r'[X]+', s) splits s at every maximal run of X characters and keeps
the (possibly empty) pieces between them, including an empty piece before a
leading run and after a trailing run; re.split of the empty string gives one
empty piece.  State inRun = true means the scanner stands just after a run
whose preceding piece is already closed. -/
def splitRunsGo (p : Char → Bool) (inRun : Bool) : List Char → List (List Char)
  | [] => [[]]
  | c :: rest =>
    if p c then
      if inRun then splitRunsGo p true rest
      else [] :: splitRunsGo p true rest
    else
      match splitRunsGo p false rest with
      | [] => [[c]]
      | t :: ts => (c :: t) :: ts

/-- re.split on one-or-more repetitions of the class p. -/
def splitRuns (p : Char → Bool) (cs : List Char) : List (List Char) :=
  splitRunsGo p false cs

/-- str.split() with no argument: whitespace-run splitting discarding empty
pieces. -/
def pySplitWs (cs : List Char) : List (List Char) :=
  (splitRuns isWs cs).filter (fun u => !u.isEmpty)

/- ### str.join -/

/-- sep.join(list): concatenation with sep between consecutive elements. -/
def joinSep (sep : List Char) : List (List Char) → List Char
  | [] => []
  | [t] => t
  | t :: ts => t ++ sep ++ joinSep sep ts

/- ### the word-level dedup loop of clean_transcript

for i, word in enumerate(words):
    if i > 0 and word.lower() == words[i-1].lower(): continue
    cleaned_words.append(word)

Note the comparison is against the original previous list element words[i-1],
not against the last kept word; prev tracks exactly that. -/
def dedupAdjGo (prev : List Char) : List (List Char) → List (List Char)
  | [] => []
  | w :: ws =>
    if lowerW w = lowerW prev then dedupAdjGo w ws
    else w :: dedupAdjGo w ws

/-- Drop every word that is a case-insensitive duplicate of the immediately
preceding word of the original list. -/
def dedupAdj : List (List Char) → List (List Char)
  | [] => []
  | w :: ws => w :: dedupAdjGo w ws

/- ### the sentence-level dedup loop of clean_transcript

unique_sentences = []
for sentence in sentences:
    sentence = sentence.strip()
    if sentence and sentence not in unique_sentences:
        unique_sentences.append(sentence)
-/
def uniqueAppend : List (List Char) → List (List Char) → List (List Char)
  | [], acc => acc
  | s :: ss, acc =>
    let s' := trimChars s
    if !s'.isEmpty && !(acc.contains s') then uniqueAppend ss (acc ++ [s'])
    else uniqueAppend ss acc

/- ### clean_transcript -/

/-- clean_transcript of src/utils/youtube_utils.py on the character level.
The leading falsy test (if not transcript: return transcript) is the
empty-string test here. -/
def cleanChars (cs : List Char) : List Char :=
  if cs.isEmpty then cs
  else
    let t1 := stripTags cs
    let t2 := stripTs t1
    let words := pySplitWs t2
    let cleaned := dedupAdj words
    let t3 := joinSep [' '] cleaned
    let t4 := trimChars (collapseWs t3)
    let sentences := splitRuns isTerm t4
    let uniq := uniqueAppend sentences []
    let t5 := joinSep ['.', ' '] uniq
    let t6 := trimChars (collapseWs t5)
    collapseDots t6

/-- clean_transcript of src/utils/youtube_utils.py. -/
def clean_transcript (s : String) : String := String.mk (cleanChars s.data)

/- ### summarize_text (src/utils/summarizer.py)

summarize_text prefers the linguistic resources of the external NLTK
library (punkt sentence splitter, english stopword list, WordNet
lemmatizer, word_tokenize); those are not part of this repository.  Each
use is wrapped in a try/except whose except branch is a fallback defined in
the source itself: regex sentence splitting on [.!?]+, regex word
tokenization \b\w+\b, a built-in 14-word stopword list, and no
lemmatization.  The embedding models that in-source fallback path. -/

/-- Word-constituent test: the regex class \w (ASCII semantics). -/
def isWordChar (c : Char) : Bool := c.isAlphanum || c = '_'

/-- re.findall(r'\b\w+\b', s): the maximal runs of word characters.  A
maximal \w-run always has word boundaries on both sides, so the matches are
exactly the nonempty pieces between non-word characters. -/
def wordRuns (cs : List Char) : List (List Char) :=
  (splitRuns (fun c => !isWordChar c) cs).filter (fun u => !u.isEmpty)

/-- str.isalnum(): nonempty and every character alphanumeric. -/
def pyIsAlnum (cs : List Char) : Bool := !cs.isEmpty && cs.all Char.isAlphanum

/-- The built-in fallback stopword list of summarize_text. -/
def stopList : List (List Char) :=
  ["the".data, "a".data, "an".data, "and".data, "or".data, "but".data,
   "in".data, "on".data, "at".data, "to".data, "for".data, "of".data,
   "with".data, "by".data]

/-- Word preprocessing applied to one sentence, identically in the
frequency pass and in the scoring pass of summarize_text:
words = re.findall(r'\b\w+\b', sentence.lower());
keep word if word.isalnum() and word not in stop_words and len(word) > 2. -/
def processedWords (s : List Char) : List (List Char) :=
  (wordRuns (lowerW s)).filter
    (fun w => pyIsAlnum w && !(stopList.contains w) && decide (2 < w.length))

/-- Whitespace normalization at the head of summarize_text:
re.sub(r'\s+', ' ', transcript).strip(). -/
def normWsChars (cs : List Char) : List Char := trimChars (collapseWs cs)

/-- The fallback sentence splitter of summarize_text:
[s.strip() for s in re.split(r'[.!?]+', transcript) if s.strip()]. -/
def sentencesOf (cs : List Char) : List (List Char) :=
  ((splitRuns isTerm cs).map trimChars).filter (fun u => !u.isEmpty)

/-- All preprocessed words of the whole transcript; the word_freq Counter of
summarize_text is the multiset of these, so the Counter is empty exactly
when this list is empty, and word_freq[w] is the count of w in it. -/
def allWords (ts : List (List Char)) : List (List Char) :=
  (ts.map processedWords).flatten

/-- Score of one sentence: the sum over its preprocessed words of the
global frequency word_freq[word]. -/
def sentenceScore (ts : List (List Char)) (s : List Char) : Nat :=
  ((processedWords s).map (fun w => (allWords ts).count w)).sum

/-- One assignment d[k] = v on a Python dict modelled as an
insertion-ordered association list: an existing key keeps its position and
gets the new value, a new key is appended. -/
def pyDictInsert (d : List (List Char × Nat)) (k : List Char) (v : Nat) :
    List (List Char × Nat) :=
  if d.any (fun p => p.1 = k) then
    d.map (fun p => if p.1 = k then (p.1, v) else p)
  else d ++ [(k, v)]

/-- The loop building sentence_scores: for each sentence in order,
sentence_scores[sentence] = score(sentence). -/
def buildScores (ts : List (List Char)) :
    List (List Char) → List (List Char × Nat) → List (List Char × Nat)
  | [], d => d
  | s :: ss, d => buildScores ts ss (pyDictInsert d s (sentenceScore ts s))

/-- The sentence_scores dict of summarize_text: keyed by the exact sentence
string, in first-occurrence order. -/
def sentenceScores (ts : List (List Char)) : List (List Char × Nat) :=
  buildScores ts ts []

/-- One insertion step of a stable insertion sort: the new element goes
before the first existing element it relates to. -/
def sortInsert (le : α → α → Bool) (x : α) : List α → List α
  | [] => [x]
  | y :: ys => if le x y then x :: y :: ys else y :: sortInsert le x ys

/-- Stable sort; extensionally equal to Python's sorted for a total
preorder le (ties keep original order). -/
def sortStable (le : α → α → Bool) : List α → List α
  | [] => []
  | x :: xs => sortInsert le x (sortStable le xs)

/-- Comparison for sorted(items, key=lambda x: x[1], reverse=True): a stays
before b exactly when a's score is at least b's. -/
def scoreGe (a b : List Char × Nat) : Bool := decide (b.2 ≤ a.2)

/-- Comparison for sorted(items, key=lambda x: sentences.index(x[0])). -/
def idxLe (ts : List (List Char)) (a b : List Char × Nat) : Bool :=
  decide (ts.indexOf a.1 ≤ ts.indexOf b.1)

/-- The first-occurrence list of distinct sentences; its length is the
number of distinct sentences and it equals the key list of
sentence_scores. -/
def firstOccur (ts : List (List Char)) : List (List Char) :=
  ts.foldl (fun acc s => if s ∈ acc then acc else acc ++ [s]) []

/-- summarize_text of src/utils/summarizer.py on the character level, on
its in-source fallback path (see the section comment above).  The
ensure_nltk_data call concerns only the external resources and has no
counterpart here. -/
def summarizeChars (cs : List Char) (maxSentences : Nat) : List Char :=
  let t := normWsChars cs
  if t.isEmpty then "❌ Empty transcript provided.".data
  else
    let sentences := sentencesOf t
    if sentences.length = 0 then
      "❌ No valid sentences found in transcript.".data
    else if sentences.length ≤ maxSentences then t
    else if (allWords sentences).isEmpty then
      "❌ No meaningful words found for summarization.".data
    else
      let top := (sortStable scoreGe (sentenceScores sentences)).take maxSentences
      let top2 := sortStable (idxLe sentences) top
      let summary := joinSep [' '] (top2.map Prod.fst)
      if (trimChars summary).isEmpty then "❌ Failed to generate summary.".data
      else summary

/-- summarize_text of src/utils/summarizer.py (max_sentences defaults
to 10 as in the source). -/
def summarize_text (s : String) (maxSentences : Nat := 10) : String :=
  String.mk (summarizeChars s.data maxSentences)

/- ### get_transcript (src/utils/youtube_utils.py)

The three acquisition strategies (yt-dlp, direct API, web scraping) perform
network I/O and are modelled as an ordered list of outcomes, one per
strategy: none stands for a raised exception (caught by the per-strategy
except and skipped), some s for a returned string s.  The pipeline logic of
get_transcript around them is embedded exactly: a returned string counts as
failure exactly when it starts with the marker prefix, the first success is
cleaned and returned, and the loop records how many strategies were
invoked. -/

/-- Result of get_transcript: the returned string together with the number
of strategies that were invoked (each invocation performs network I/O in
the source). -/
structure FetchResult where
  output : String
  attempts : Nat
deriving Repr, DecidableEq

/-- str.split(sep) for a nonempty separator: cut at every leftmost
non-overlapping occurrence of sep, keeping empty pieces.  The fuel argument
(instantiated with the length of the list, an upper bound on the number of
steps) only makes the recursion structural; the zero case is unreachable. -/
def pySplitOnFuel (sep : List Char) : Nat → List Char → List (List Char)
  | _, [] => [[]]
  | 0, cs => [cs]
  | n + 1, c :: rest =>
    if sep.isPrefixOf (c :: rest) then
      [] :: pySplitOnFuel sep n ((c :: rest).drop sep.length)
    else
      match pySplitOnFuel sep n rest with
      | [] => [[c]]
      | t :: ts => (c :: t) :: ts

/-- str.split(sep) for a nonempty separator sep. -/
def pySplitOn (sep cs : List Char) : List (List Char) :=
  pySplitOnFuel sep cs.length cs

/-- Python substring test sub in s for nonempty sub: the split on sub
yields more than one part exactly when sub occurs in s. -/
def pyContains (cs sub : List Char) : Bool :=
  decide (2 ≤ (pySplitOn sub cs).length)

/-- The URL-parsing step of get_transcript: the three recognized shapes in
source order, each extracting the video id with the same split expressions
as the source (split("v=")[1].split("&")[0] and so on); none when no shape
matches.  The index [1] and [0] accesses are total here via defaults; the
guarding containment test guarantees the split has a second part, so the
defaults are never the value taken. -/
def extractVideoId (videoUrl : List Char) : Option (List Char) :=
  let u := trimChars videoUrl
  if pyContains u "v=".data then
    some (((pySplitOn "v=".data u).getD 1 []) |> pySplitOn "&".data |>.headD [])
  else if pyContains u "youtu.be/".data then
    some (((pySplitOn "youtu.be/".data u).getD 1 []) |> pySplitOn "?".data |>.headD [])
  else if pyContains u "youtube.com/embed/".data then
    some (((pySplitOn "youtube.com/embed/".data u).getD 1 []) |> pySplitOn "?".data |>.headD [])
  else none

/-- The strategy loop of get_transcript: skip an exception (none) or a
marker-prefixed result, return clean_transcript of the first other result;
when the list is exhausted return the aggregate failure message. -/
def runMethods : List (Option String) → Nat → FetchResult
  | [], n => ⟨"❌ All transcript methods failed. This video may not have accessible transcripts.", n⟩
  | r :: rs, n =>
    match r with
    | none => runMethods rs (n + 1)
    | some s =>
      if "❌".data.isPrefixOf s.data then runMethods rs (n + 1)
      else ⟨clean_transcript s, n + 1⟩

/-- get_transcript of src/utils/youtube_utils.py, parameterized by the
outcomes of the acquisition strategies. -/
def get_transcript (methods : List (Option String)) (videoUrl : String) :
    FetchResult :=
  match extractVideoId videoUrl.data with
  | none => ⟨"❌ Invalid YouTube URL format. Please use a valid YouTube URL.", 0⟩
  | some id =>
    if id.isEmpty || id.length != 11 then
      ⟨"❌ Invalid video ID extracted from URL.", 0⟩
    else runMethods methods 0

/-- A strategy outcome that get_transcript treats as a failure: a raised
exception, or a returned string starting with the marker prefix. -/
def methodFails : Option String → Bool
  | none => true
  | some s => "❌".data.isPrefixOf s.data

/- ### Predicates for the angle-bracket-span property -/

/-- The text contains a substring matched by the regex <[^>]+> : a '<',
then one or more characters none of which is '>', then a '>'. -/
def HasSpan (cs : List Char) : Prop :=
  ∃ a b c, cs = a ++ '<' :: b ++ '>' :: c ∧ b ≠ [] ∧ '>' ∉ b

/-- Span-freeness invariant: after every '<' of the text, either the very
next character is '>' or no '>' occurs at all in the remainder.  This rules
out any <[^>]+> span and is preserved by every stage of the normalizer. -/
def SpanInv (cs : List Char) : Prop :=
  ∀ a b, cs = a ++ '<' :: b → b.head? = some '>' ∨ '>' ∉ b

/-- Span-freeness of one piece of a split relative to the later pieces:
after every '<' of the piece, either the very next character (in the same
piece) is '>', or no '>' occurs in the rest of the piece nor anywhere in a
later piece. -/
def TokProp (t : List Char) (ts : List (List Char)) : Prop :=
  ∀ a b, t = a ++ '<' :: b →
    b.head? = some '>' ∨ ('>' ∉ b ∧ ∀ u ∈ ts, '>' ∉ u)

/-- Span-freeness of a list of pieces: each piece satisfies TokProp with
respect to the pieces after it. -/
def InvToks : List (List Char) → Prop
  | [] => True
  | t :: ts => TokProp t ts ∧ InvToks ts

/-- The sentences selected by summarize_text's scoring path, in final
output order: the sentence_scores items stably sorted by descending score,
cut to maxSentences, re-sorted by first-occurrence index, keys only. -/
def selectedSentences (ts : List (List Char)) (maxSentences : Nat) :
    List (List Char) :=
  (sortStable (idxLe ts)
    ((sortStable scoreGe (sentenceScores ts)).take maxSentences)).map Prod.fst


/- ### Theorems: the transcript fetcher (claims C1, C6, C7) -/

theorem runMethods_all_fail (ms : List (Option String)) (n : Nat)
    (h : ms.all methodFails = true) :
    runMethods ms n =
      ⟨"❌ All transcript methods failed. This video may not have accessible transcripts.",
        n + ms.length⟩ := by
  induction ms generalizing n with
  | nil => simp [runMethods]
  | cons r rs ih =>
    rw [List.all_cons, Bool.and_eq_true] at h
    match r with
    | none =>
      rw [runMethods, ih (n + 1) h.2]
      simp [Nat.add_comm, Nat.add_assoc, Nat.add_left_comm]
    | some s =>
      have hs : "❌".data.isPrefixOf s.data = true := h.1
      rw [runMethods]
      simp only [hs, if_true]
      rw [ih (n + 1) h.2]
      simp [Nat.add_comm, Nat.add_assoc, Nat.add_left_comm]

theorem get_transcript_valid (url : String) (vid : List Char)
    (ms : List (Option String)) (h1 : extractVideoId url.data = some vid)
    (h2 : vid.length = 11) : get_transcript ms url = runMethods ms 0 := by
  unfold get_transcript
  rw [h1]
  have hne : vid.isEmpty = false := by
    cases vid with
    | nil => simp at h2
    | cons c cs => rfl
  simp [hne, h2]

/-- Claim C1 (amended): the fetch pipeline treats a strategy result as a
failure exactly when it starts with the marker prefix.  A well-formed but
empty text result does not carry the marker, so it is accepted as that
strategy's success: the pipeline normalizes it and returns the empty
string without advancing to the next strategy (attempts = 1). -/
theorem claim_C1 (url : String) (rest : List (Option String)) (vid : List Char)
    (h1 : extractVideoId url.data = some vid) (h2 : vid.length = 11) :
    get_transcript (some "" :: rest) url = ⟨"", 1⟩ := by
  rw [get_transcript_valid url vid _ h1 h2, runMethods]
  norm_num
  rfl

/-- Claim C1, refuting the original statement: with a first strategy
returning the empty string and a second strategy that would return the text
"hello", the pipeline returns the empty string after one attempt; it does
not treat the empty result as a failure and does not advance. -/
theorem claim_C1_counterexample :
    get_transcript [some "", some "hello"] "https://youtu.be/ABCDEFGHIJK" =
      ⟨"", 1⟩ := by decide

theorem claim_C1_witness :
    extractVideoId "https://www.youtube.com/watch?v=ABCDEFGHIJK".data =
        some "ABCDEFGHIJK".data ∧
      "ABCDEFGHIJK".data.length = 11 ∧
      get_transcript [some "", some "other text"]
          "https://www.youtube.com/watch?v=ABCDEFGHIJK" = ⟨"", 1⟩ :=
  ⟨by decide, by decide,
    claim_C1 "https://www.youtube.com/watch?v=ABCDEFGHIJK"
      [some "other text"] "ABCDEFGHIJK".data (by decide) (by decide)⟩

/-- Claim C6: for a URL from which a valid 11-character video id is
extracted, if every acquisition strategy fails (raises, or returns a
marker-prefixed string), get_transcript returns the aggregate
no-transcript-available failure message; the embedding is total, so no
exception escapes, and the attempt count shows that every strategy in the
list was tried. -/
theorem claim_C6 (url : String) (vid : List Char) (ms : List (Option String))
    (h1 : extractVideoId url.data = some vid) (h2 : vid.length = 11)
    (hall : ms.all methodFails = true) :
    get_transcript ms url =
      ⟨"❌ All transcript methods failed. This video may not have accessible transcripts.",
        ms.length⟩ := by
  rw [get_transcript_valid url vid _ h1 h2, runMethods_all_fail ms 0 hall]
  simp

theorem claim_C6_witness :
    extractVideoId "https://www.youtube.com/watch?v=XXXXXXXXXXX".data =
        some "XXXXXXXXXXX".data ∧
      "XXXXXXXXXXX".data.length = 11 ∧
      [none, some "❌ yt-dlp error: boom", none].all methodFails = true ∧
      get_transcript [none, some "❌ yt-dlp error: boom", none]
          "https://www.youtube.com/watch?v=XXXXXXXXXXX" =
        ⟨"❌ All transcript methods failed. This video may not have accessible transcripts.",
          3⟩ :=
  ⟨by decide, by decide, by decide,
    claim_C6 "https://www.youtube.com/watch?v=XXXXXXXXXXX" "XXXXXXXXXXX".data
      [none, some "❌ yt-dlp error: boom", none] (by decide) (by decide)
      (by decide)⟩

/-- Claim C7: a URL matching none of the recognized shapes yields the
invalid-URL-format message, and a URL whose extracted id does not have
exactly 11 characters yields the invalid-video-id message; in both cases
the attempt count is 0, i.e. no acquisition strategy is invoked and no
network I/O is attempted, whatever the strategies would return. -/
theorem claim_C7 (url : String) (ms : List (Option String)) :
    (extractVideoId url.data = none →
      get_transcript ms url =
        ⟨"❌ Invalid YouTube URL format. Please use a valid YouTube URL.", 0⟩) ∧
    (∀ vid, extractVideoId url.data = some vid → vid.length ≠ 11 →
      get_transcript ms url =
        ⟨"❌ Invalid video ID extracted from URL.", 0⟩) := by
  constructor
  · intro h
    unfold get_transcript
    rw [h]
  · intro vid h hlen
    unfold get_transcript
    rw [h]
    have : (vid.length != 11) = true := by simpa using hlen
    simp [this]

theorem claim_C7_witness :
    extractVideoId "not a video link".data = none ∧
      get_transcript [some "text"] "not a video link" =
        ⟨"❌ Invalid YouTube URL format. Please use a valid YouTube URL.", 0⟩ ∧
      extractVideoId "https://www.youtube.com/watch?v=SHORT".data =
        some "SHORT".data ∧
      get_transcript [some "text"] "https://www.youtube.com/watch?v=SHORT" =
        ⟨"❌ Invalid video ID extracted from URL.", 0⟩ :=
  ⟨by decide,
    (claim_C7 "not a video link" [some "text"]).1 (by decide),
    by decide,
    (claim_C7 "https://www.youtube.com/watch?v=SHORT" [some "text"]).2
      "SHORT".data (by decide) (by decide)⟩

/- ### Theorems: sentence deduplication example (claim C3) -/

/-- Claim C3, refuting the original statement: the normalizer's output on
the given input is not "Hello world. Goodbye." — the sentence join places
". " only between surviving sentences and nothing after the last one, so
the trailing period of the original claim is absent. -/
theorem claim_C3_counterexample :
    clean_transcript "Hello world. Hello world. Goodbye." ≠
      "Hello world. Goodbye." := by decide

/-- Claim C3 (amended): normalizing "Hello world. Hello world. Goodbye."
yields "Hello world. Goodbye": duplicate sentences (exact match after
trimming) are dropped keeping the first occurrence in stable order, and the
surviving sentences are joined with ". " between them, with no trailing
terminator. -/
theorem claim_C3 :
    clean_transcript "Hello world. Hello world. Goodbye." =
      "Hello world. Goodbye" := by decide

/- ### Theorems: summarizer branch behavior (claims C8, C2) -/

theorem summarize_verbatim (cs : List Char) (max : Nat)
    (h1 : normWsChars cs ≠ []) (h2 : 1 ≤ (sentencesOf (normWsChars cs)).length)
    (h3 : (sentencesOf (normWsChars cs)).length ≤ max) :
    summarizeChars cs max = normWsChars cs := by
  have ht : (normWsChars cs).isEmpty = false := by
    cases h : normWsChars cs with
    | nil => exact absurd h h1
    | cons a l => rfl
  have hz : ¬ (sentencesOf (normWsChars cs)).length = 0 := by omega
  unfold summarizeChars
  simp [ht, hz, h3]

theorem summarize_no_words (cs : List Char) (max : Nat)
    (h1 : normWsChars cs ≠ [])
    (h2 : max < (sentencesOf (normWsChars cs)).length)
    (h3 : allWords (sentencesOf (normWsChars cs)) = []) :
    summarizeChars cs max = "❌ No meaningful words found for summarization.".data := by
  have ht : (normWsChars cs).isEmpty = false := by
    cases h : normWsChars cs with
    | nil => exact absurd h h1
    | cons a l => rfl
  have hz : ¬ (sentencesOf (normWsChars cs)).length = 0 := by omega
  have hle : ¬ (sentencesOf (normWsChars cs)).length ≤ max := by omega
  unfold summarizeChars
  simp [ht, hz, hle, h3]

/-- Claim C8, refuting the original statement: the transcript "..." is
nonempty after whitespace collapse and splits into zero (hence at most
maxSentences) sentences, yet summarize returns the no-valid-sentences
failure message, not the transcript. -/
theorem claim_C8_counterexample :
    summarize_text "..." = "❌ No valid sentences found in transcript." ∧
      summarize_text "..." ≠ "..." := by
  constructor
  · decide
  · decide

/-- Claim C8 (amended): for every transcript that is nonempty after
whitespace collapse and splits into at least one and at most maxSentences
sentences, summarize returns the whitespace-normalized transcript
unchanged, with no scoring, selection or reordering. -/
theorem claim_C8 (s : String) (max : Nat) (h1 : normWsChars s.data ≠ [])
    (h2 : 1 ≤ (sentencesOf (normWsChars s.data)).length)
    (h3 : (sentencesOf (normWsChars s.data)).length ≤ max) :
    summarize_text s max = String.mk (normWsChars s.data) := by
  unfold summarize_text
  rw [summarize_verbatim s.data max h1 h2 h3]

theorem claim_C8_witness :
    normWsChars "  alpha beta.   gamma  ".data ≠ [] ∧
      1 ≤ (sentencesOf (normWsChars "  alpha beta.   gamma  ".data)).length ∧
      (sentencesOf (normWsChars "  alpha beta.   gamma  ".data)).length ≤ 10 ∧
      summarize_text "  alpha beta.   gamma  " 10 = "alpha beta. gamma" :=
  ⟨by decide, by decide, by decide, by
    rw [claim_C8 "  alpha beta.   gamma  " 10 (by decide) (by decide) (by decide)]
    decide⟩

/-- Claim C2, refuting the original statement: the all-stopword transcript
"the a an and or" splits into a single sentence, so summarize returns it
verbatim (the sentence-count branch precedes word filtering); the
no-meaningful-words failure is never reached for this input. -/
theorem claim_C2_counterexample :
    summarize_text "the a an and or" = "the a an and or" ∧
      summarize_text "the a an and or" ≠
        "❌ No meaningful words found for summarization." := by
  constructor
  · decide
  · decide

/-- Claim C2 (amended): when the global frequency map ends empty (every
token is filtered out as a stopword, as too short, or as non-alphanumeric)
and the transcript has more than maxSentences sentences — so that the
scoring path is actually reached — summarize returns the
no-meaningful-words failure message.  With at most maxSentences sentences,
an all-stopword transcript is instead returned verbatim. -/
theorem claim_C2 (s : String) (max : Nat) (h1 : normWsChars s.data ≠ [])
    (h2 : max < (sentencesOf (normWsChars s.data)).length)
    (h3 : allWords (sentencesOf (normWsChars s.data)) = []) :
    summarize_text s max = "❌ No meaningful words found for summarization." := by
  unfold summarize_text
  rw [summarize_no_words s.data max h1 h2 h3]

theorem claim_C2_witness :
    normWsChars "the and. of with".data ≠ [] ∧
      1 < (sentencesOf (normWsChars "the and. of with".data)).length ∧
      allWords (sentencesOf (normWsChars "the and. of with".data)) = [] ∧
      summarize_text "the and. of with" 1 =
        "❌ No meaningful words found for summarization." :=
  ⟨by decide, by decide, by decide,
    claim_C2 "the and. of with" 1 (by decide) (by decide) (by decide)⟩

/- ### Helper lemmas: str.strip -/

theorem dropWhile_head_not (p : Char → Bool) (cs : List Char) (c : Char)
    (l : List Char) (h : cs.dropWhile p = c :: l) : p c = false := by
  induction cs with
  | nil => simp at h
  | cons a as ih =>
    rw [List.dropWhile_cons] at h
    by_cases hp : p a = true
    · exact ih (by simpa [hp] using h)
    · have : a = c := by
        have := h
        simp [hp] at this
        exact this.1
      subst this
      simpa using hp

theorem trimChars_prefix (cs : List Char) :
    trimChars cs <+: cs.dropWhile isWs := by
  unfold trimChars
  rw [← List.reverse_suffix, List.reverse_reverse]
  exact List.dropWhile_suffix isWs

theorem trimChars_head_not_ws (cs : List Char) (c : Char) (l : List Char)
    (h : trimChars cs = c :: l) : isWs c = false := by
  rcases trimChars_prefix cs with ⟨t, ht⟩
  rw [h] at ht
  exact dropWhile_head_not isWs cs c (l ++ t) (by rw [← ht]; simp)

theorem trimChars_reverse_head_not_ws (cs : List Char) (c : Char)
    (l : List Char) (h : (trimChars cs).reverse = c :: l) : isWs c = false := by
  unfold trimChars at h
  rw [List.reverse_reverse] at h
  exact dropWhile_head_not isWs (cs.dropWhile isWs).reverse c l h

theorem dropWhile_eq_self_of_head (p : Char → Bool) (cs : List Char)
    (h : ∀ c l, cs = c :: l → p c = false) : cs.dropWhile p = cs := by
  cases cs with
  | nil => rfl
  | cons c l => rw [List.dropWhile_cons, h c l rfl]; simp

theorem trimChars_idem (cs : List Char) :
    trimChars (trimChars cs) = trimChars cs := by
  have h1 : (trimChars cs).dropWhile isWs = trimChars cs :=
    dropWhile_eq_self_of_head _ _ (fun c l h => trimChars_head_not_ws cs c l h)
  show ((((trimChars cs).dropWhile isWs).reverse.dropWhile isWs)).reverse = _
  rw [h1]
  have h2 : (trimChars cs).reverse.dropWhile isWs = (trimChars cs).reverse :=
    dropWhile_eq_self_of_head _ _
      (fun c l h => trimChars_reverse_head_not_ws cs c l h)
  rw [h2, List.reverse_reverse]

theorem trimChars_eq_nil_all_ws (cs : List Char) (h : trimChars cs = []) :
    ∀ x ∈ cs, isWs x = true := by
  unfold trimChars at h
  have h2 : (cs.dropWhile isWs).reverse.dropWhile isWs = [] := by
    have := congrArg List.reverse h
    simpa using this
  rw [List.dropWhile_eq_nil_iff] at h2
  intro x hx
  have h3 : x ∈ cs.takeWhile isWs ++ cs.dropWhile isWs := by
    rw [List.takeWhile_append_dropWhile]; exact hx
  rcases List.mem_append.mp h3 with h4 | h4
  · exact List.mem_takeWhile_imp h4
  · exact h2 x (List.mem_reverse.mpr h4)

theorem trimChars_ne_nil_of_mem (cs : List Char) (c : Char) (hc : c ∈ cs)
    (hw : isWs c = false) : trimChars cs ≠ [] := by
  intro h
  have := trimChars_eq_nil_all_ws cs h c hc
  rw [hw] at this
  exact Bool.false_ne_true this

theorem mem_sentencesOf (t : List Char) (s : List Char)
    (h : s ∈ sentencesOf t) : trimChars s = s ∧ s ≠ [] := by
  rcases List.mem_filter.mp h with ⟨hmem, hne⟩
  rcases List.mem_map.mp hmem with ⟨u, _, rfl⟩
  refine ⟨trimChars_idem u, ?_⟩
  intro hnil
  rw [hnil] at hne
  simp at hne

theorem joinSep_cons_ex (sep : List Char) (s : List Char)
    (rest : List (List Char)) : ∃ x, joinSep sep (s :: rest) = s ++ x := by
  cases rest with
  | nil => exact ⟨[], by simp [joinSep]⟩
  | cons t ts =>
    exact ⟨sep ++ joinSep sep (t :: ts), by rw [← List.append_assoc]; rfl⟩

theorem trim_joinSep_ne_nil (sep : List Char) (s : List Char)
    (rest : List (List Char)) (hs : trimChars s = s) (hne : s ≠ []) :
    trimChars (joinSep sep (s :: rest)) ≠ [] := by
  rcases List.exists_cons_of_ne_nil hne with ⟨c, l, rfl⟩
  rcases joinSep_cons_ex sep (c :: l) rest with ⟨x, hx⟩
  rw [hx]
  have hcw : isWs c = false := trimChars_head_not_ws _ c l hs
  exact trimChars_ne_nil_of_mem _ c (by simp) hcw

/- ### Helper lemmas: the stable sort -/

theorem sortInsert_perm (le : α → α → Bool) (x : α) (l : List α) :
    (sortInsert le x l).Perm (x :: l) := by
  induction l with
  | nil => exact List.Perm.refl _
  | cons y ys ih =>
    unfold sortInsert
    by_cases h : le x y = true
    · simp [h]
    · rw [if_neg (by simpa using h)]
      exact (ih.cons y).trans (List.Perm.swap x y ys)

theorem sortStable_perm (le : α → α → Bool) (l : List α) :
    (sortStable le l).Perm l := by
  induction l with
  | nil => exact List.Perm.refl _
  | cons x xs ih =>
    exact (sortInsert_perm le x (sortStable le xs)).trans (ih.cons x)

theorem sortInsert_pairwise (le : α → α → Bool)
    (htot : ∀ a b, le a b = true ∨ le b a = true)
    (htrans : ∀ a b c, le a b = true → le b c = true → le a c = true)
    (x : α) (l : List α) (h : l.Pairwise (fun a b => le a b = true)) :
    (sortInsert le x l).Pairwise (fun a b => le a b = true) := by
  induction l with
  | nil => simp [sortInsert]
  | cons y ys ih =>
    rcases List.pairwise_cons.mp h with ⟨hy, hys⟩
    unfold sortInsert
    by_cases hxy : le x y = true
    · rw [if_pos hxy]
      refine List.pairwise_cons.mpr ⟨?_, h⟩
      intro b hb
      rcases List.mem_cons.mp hb with rfl | hb
      · exact hxy
      · exact htrans x y b hxy (hy b hb)
    · rw [if_neg (by simpa using hxy)]
      refine List.pairwise_cons.mpr ⟨?_, ih hys⟩
      intro b hb
      have hmem : b ∈ x :: ys := (sortInsert_perm le x ys).mem_iff.mp hb
      rcases List.mem_cons.mp hmem with hbx | hb2
      · rw [hbx]
        rcases htot x y with h1 | h1
        · exact absurd h1 hxy
        · exact h1
      · exact hy b hb2

theorem sortStable_pairwise (le : α → α → Bool)
    (htot : ∀ a b, le a b = true ∨ le b a = true)
    (htrans : ∀ a b c, le a b = true → le b c = true → le a c = true)
    (l : List α) :
    (sortStable le l).Pairwise (fun a b => le a b = true) := by
  induction l with
  | nil => simp [sortStable]
  | cons x xs ih => exact sortInsert_pairwise le htot htrans x _ ih

/- ### Helper lemmas: the sentence_scores dict and distinct sentences -/

theorem pyDictInsert_keys (d : List (List Char × Nat)) (k : List Char)
    (v : Nat) :
    (pyDictInsert d k v).map Prod.fst =
      if k ∈ d.map Prod.fst then d.map Prod.fst
      else d.map Prod.fst ++ [k] := by
  unfold pyDictInsert
  have hmem : d.any (fun p => p.1 = k) = true ↔ k ∈ d.map Prod.fst := by
    rw [List.any_eq_true]
    constructor
    · rintro ⟨p, hp, he⟩
      rw [decide_eq_true_iff] at he
      exact List.mem_map.mpr ⟨p, hp, he⟩
    · intro hk
      rcases List.mem_map.mp hk with ⟨p, hp, he⟩
      exact ⟨p, hp, by rw [decide_eq_true_iff]; exact he⟩
  by_cases h : k ∈ d.map Prod.fst
  · rw [if_pos (hmem.mpr h), if_pos h, List.map_map]
    apply List.map_congr_left
    intro p _
    by_cases hp : p.1 = k
    · simp [hp]
    · simp [hp]
  · rw [if_neg (by intro hc; exact h (hmem.mp hc)), if_neg h]
    simp

theorem buildScores_keys (ts ss : List (List Char))
    (d : List (List Char × Nat)) :
    (buildScores ts ss d).map Prod.fst =
      ss.foldl (fun acc s => if s ∈ acc then acc else acc ++ [s])
        (d.map Prod.fst) := by
  induction ss generalizing d with
  | nil => rfl
  | cons s ss ih =>
    rw [buildScores, ih, List.foldl_cons, pyDictInsert_keys]

theorem sentenceScores_keys (ts : List (List Char)) :
    (sentenceScores ts).map Prod.fst = firstOccur ts := by
  rw [sentenceScores, buildScores_keys]
  rfl

theorem firstOccur_step_nodup (ss : List (List Char))
    (acc : List (List Char)) (h : acc.Nodup) :
    (ss.foldl (fun acc s => if s ∈ acc then acc else acc ++ [s]) acc).Nodup := by
  induction ss generalizing acc with
  | nil => exact h
  | cons s ss ih =>
    rw [List.foldl_cons]
    by_cases hs : s ∈ acc
    · rw [if_pos hs]; exact ih acc h
    · rw [if_neg hs]
      refine ih _ (List.nodup_append.mpr ⟨h, List.nodup_singleton s, ?_⟩)
      intro a ha hb
      rw [List.mem_singleton] at hb
      subst hb
      exact hs ha

theorem firstOccur_nodup (ts : List (List Char)) : (firstOccur ts).Nodup :=
  firstOccur_step_nodup ts [] List.nodup_nil

theorem firstOccur_step_subset (ss : List (List Char))
    (acc : List (List Char)) (x : List Char)
    (h : x ∈ ss.foldl (fun acc s => if s ∈ acc then acc else acc ++ [s]) acc) :
    x ∈ acc ∨ x ∈ ss := by
  induction ss generalizing acc with
  | nil => exact Or.inl h
  | cons s ss ih =>
    rw [List.foldl_cons] at h
    by_cases hs : s ∈ acc
    · rw [if_pos hs] at h
      rcases ih acc h with h1 | h1
      · exact Or.inl h1
      · exact Or.inr (List.mem_cons_of_mem s h1)
    · rw [if_neg hs] at h
      rcases ih _ h with h1 | h1
      · rcases List.mem_append.mp h1 with h2 | h2
        · exact Or.inl h2
        · rw [List.mem_singleton] at h2
          exact Or.inr (h2 ▸ List.mem_cons_self s ss)
      · exact Or.inr (List.mem_cons_of_mem s h1)

theorem firstOccur_subset (ts : List (List Char)) (x : List Char)
    (h : x ∈ firstOccur ts) : x ∈ ts := by
  rcases firstOccur_step_subset ts [] x h with h1 | h1
  · simp at h1
  · exact h1

theorem firstOccur_step_ex (ss : List (List Char)) (acc : List (List Char)) :
    ∃ u, ss.foldl (fun acc s => if s ∈ acc then acc else acc ++ [s]) acc =
      acc ++ u := by
  induction ss generalizing acc with
  | nil => exact ⟨[], by simp⟩
  | cons s ss ih =>
    rw [List.foldl_cons]
    by_cases hs : s ∈ acc
    · rw [if_pos hs]; exact ih acc
    · rw [if_neg hs]
      rcases ih (acc ++ [s]) with ⟨u, hu⟩
      exact ⟨[s] ++ u, by rw [hu, List.append_assoc]⟩

theorem firstOccur_ne_nil (ts : List (List Char)) (h : ts ≠ []) :
    firstOccur ts ≠ [] := by
  cases ts with
  | nil => exact absurd rfl h
  | cons s ss =>
    unfold firstOccur
    rw [List.foldl_cons]
    have hstep :
        (if s ∈ ([] : List (List Char)) then ([] : List (List Char))
          else [] ++ [s]) = [s] := by simp
    rw [hstep]
    rcases firstOccur_step_ex ss [s] with ⟨u, hu⟩
    rw [hu]
    simp

/- ### Helper lemmas: the scoring path of summarize_text -/

theorem selectedSentences_mem (ts : List (List Char)) (max : Nat)
    (x : List Char) (h : x ∈ selectedSentences ts max) : x ∈ ts := by
  unfold selectedSentences at h
  rcases List.mem_map.mp h with ⟨p, hp, rfl⟩
  have h1 : p ∈ (sortStable scoreGe (sentenceScores ts)).take max :=
    (sortStable_perm (idxLe ts) _).mem_iff.mp hp
  have h2 : p ∈ sortStable scoreGe (sentenceScores ts) :=
    (List.take_sublist max _).mem h1
  have h3 : p ∈ sentenceScores ts :=
    (sortStable_perm scoreGe _).mem_iff.mp h2
  have h4 : p.1 ∈ (sentenceScores ts).map Prod.fst :=
    List.mem_map.mpr ⟨p, h3, rfl⟩
  rw [sentenceScores_keys] at h4
  exact firstOccur_subset ts p.1 h4

theorem selectedSentences_nodup (ts : List (List Char)) (max : Nat) :
    (selectedSentences ts max).Nodup := by
  unfold selectedSentences
  have n1 : ((sentenceScores ts).map Prod.fst).Nodup := by
    rw [sentenceScores_keys]; exact firstOccur_nodup ts
  have n2 : ((sortStable scoreGe (sentenceScores ts)).map Prod.fst).Nodup :=
    (((sortStable_perm scoreGe (sentenceScores ts)).map Prod.fst).nodup_iff).mpr n1
  have n3 :
      (((sortStable scoreGe (sentenceScores ts)).take max).map Prod.fst).Nodup :=
    ((List.take_sublist max _).map Prod.fst).nodup n2
  exact (((sortStable_perm (idxLe ts) _).map Prod.fst).nodup_iff).mpr n3

theorem selectedSentences_length (ts : List (List Char)) (max : Nat) :
    (selectedSentences ts max).length = min max (firstOccur ts).length := by
  unfold selectedSentences
  rw [List.length_map, (sortStable_perm (idxLe ts) _).length_eq,
    List.length_take, (sortStable_perm scoreGe _).length_eq]
  have : (sentenceScores ts).length = (firstOccur ts).length := by
    rw [← sentenceScores_keys, List.length_map]
  rw [this]

theorem indexOf_inj_chars (ts : List (List Char)) (a b : List Char)
    (ha : a ∈ ts) (hb : b ∈ ts) (h : ts.indexOf a = ts.indexOf b) : a = b := by
  induction ts with
  | nil => simp at ha
  | cons c cs ih =>
    rw [List.indexOf_cons, List.indexOf_cons] at h
    by_cases hca : (c == a) = true
    · by_cases hcb : (c == b) = true
      · exact (eq_of_beq hca).symm.trans (eq_of_beq hcb)
      · have hcb' : (c == b) = false := by simpa using hcb
        rw [hca, Bool.cond_true, hcb', Bool.cond_false] at h
        simp at h
    · have hca' : (c == a) = false := by simpa using hca
      by_cases hcb : (c == b) = true
      · rw [hca', Bool.cond_false, hcb, Bool.cond_true] at h
        simp at h
      · have hcb' : (c == b) = false := by simpa using hcb
        rw [hca', Bool.cond_false, hcb', Bool.cond_false] at h
        have ha2 : a ∈ cs := by
          rcases List.mem_cons.mp ha with h1 | h1
          · exact absurd (beq_iff_eq.mpr h1.symm) hca
          · exact h1
        have hb2 : b ∈ cs := by
          rcases List.mem_cons.mp hb with h1 | h1
          · exact absurd (beq_iff_eq.mpr h1.symm) hcb
          · exact h1
        exact ih ha2 hb2 (by omega)

theorem selectedSentences_sorted (ts : List (List Char)) (max : Nat) :
    (selectedSentences ts max).Pairwise
      (fun a b => ts.indexOf a < ts.indexOf b) := by
  have htot : ∀ a b : List Char × Nat,
      idxLe ts a b = true ∨ idxLe ts b a = true := by
    intro a b
    unfold idxLe
    rcases Nat.le_total (ts.indexOf a.1) (ts.indexOf b.1) with h | h
    · exact Or.inl (by simpa using h)
    · exact Or.inr (by simpa using h)
  have htrans : ∀ a b c : List Char × Nat,
      idxLe ts a b = true → idxLe ts b c = true → idxLe ts a c = true := by
    intro a b c hab hbc
    unfold idxLe at hab hbc ⊢
    rw [decide_eq_true_iff] at hab hbc ⊢
    omega
  have hp := sortStable_pairwise (idxLe ts) htot htrans
    ((sortStable scoreGe (sentenceScores ts)).take max)
  have hle : (selectedSentences ts max).Pairwise
      (fun a b => ts.indexOf a ≤ ts.indexOf b) := by
    unfold selectedSentences
    rw [List.pairwise_map]
    refine hp.imp ?_
    intro a b hab
    unfold idxLe at hab
    rw [decide_eq_true_iff] at hab
    exact hab
  have hne : (selectedSentences ts max).Pairwise (fun a b => a ≠ b) :=
    selectedSentences_nodup ts max
  refine (hle.and hne).imp_of_mem ?_
  intro a b ha hb hab
  have hamem : a ∈ ts := selectedSentences_mem ts max a ha
  have hbmem : b ∈ ts := selectedSentences_mem ts max b hb
  rcases Nat.lt_or_ge (ts.indexOf a) (ts.indexOf b) with h | h
  · exact h
  · exfalso
    have heq : ts.indexOf a = ts.indexOf b := Nat.le_antisymm hab.1 h
    exact hab.2 (indexOf_inj_chars ts a b hamem hbmem heq)

theorem selectedSentences_ne_nil (ts : List (List Char)) (max : Nat)
    (hts : ts ≠ []) (hmax : 1 ≤ max) : selectedSentences ts max ≠ [] := by
  have hlen := selectedSentences_length ts max
  have hfo : firstOccur ts ≠ [] := firstOccur_ne_nil ts hts
  have hfl : 1 ≤ (firstOccur ts).length := by
    cases h : firstOccur ts with
    | nil => exact absurd h hfo
    | cons a l => simp
  intro h
  rw [h] at hlen
  simp at hlen
  omega

theorem summarize_scored (cs : List Char) (max : Nat)
    (h1 : normWsChars cs ≠ [])
    (h2 : max < (sentencesOf (normWsChars cs)).length)
    (h3 : allWords (sentencesOf (normWsChars cs)) ≠ [])
    (h5 : (trimChars (joinSep [' ']
        (selectedSentences (sentencesOf (normWsChars cs)) max))).isEmpty
          = false) :
    summarizeChars cs max =
      joinSep [' '] (selectedSentences (sentencesOf (normWsChars cs)) max) := by
  have ht : (normWsChars cs).isEmpty = false := by
    cases h : normWsChars cs with
    | nil => exact absurd h h1
    | cons a l => rfl
  have hz : ¬ (sentencesOf (normWsChars cs)).length = 0 := by omega
  have hle : ¬ (sentencesOf (normWsChars cs)).length ≤ max := by omega
  have hw : (allWords (sentencesOf (normWsChars cs))).isEmpty = false := by
    cases h : allWords (sentencesOf (normWsChars cs)) with
    | nil => exact absurd h h3
    | cons a l => rfl
  unfold summarizeChars selectedSentences at *
  simp only [ht, hz, hle, hw, h5, Bool.false_eq_true, if_false]

theorem summarize_selected (cs : List Char) (max : Nat)
    (h1 : normWsChars cs ≠ [])
    (h2 : max < (sentencesOf (normWsChars cs)).length)
    (h3 : allWords (sentencesOf (normWsChars cs)) ≠ [])
    (hmax : 1 ≤ max) :
    summarizeChars cs max =
      joinSep [' '] (selectedSentences (sentencesOf (normWsChars cs)) max) := by
  have hts : sentencesOf (normWsChars cs) ≠ [] := by
    intro h
    rw [h] at h2
    simp at h2
  have hne := selectedSentences_ne_nil (sentencesOf (normWsChars cs)) max hts hmax
  rcases List.exists_cons_of_ne_nil hne with ⟨s, rest, hsel⟩
  have hs : s ∈ selectedSentences (sentencesOf (normWsChars cs)) max := by
    rw [hsel]; simp
  have hsmem := selectedSentences_mem _ max s hs
  rcases mem_sentencesOf _ s hsmem with ⟨hstrim, hsne⟩
  have h5 : (trimChars (joinSep [' ']
      (selectedSentences (sentencesOf (normWsChars cs)) max))).isEmpty
        = false := by
    rw [hsel]
    have := trim_joinSep_ne_nil [' '] s rest hstrim hsne
    cases h : trimChars (joinSep [' '] (s :: rest)) with
    | nil => exact absurd h this
    | cons a l => rfl
  exact summarize_scored cs max h1 h2 h3 h5

/-- Claim C5: whenever the scoring path produces a summary (transcript
nonempty after normalization, more sentences than maxSentences, at least
one sentence selected, and a nonempty frequency map so the
no-meaningful-words failure is not taken), the returned summary is the
join, with single spaces, of a list of sentences of the transcript whose
first-occurrence indices (index lookup on the exact sentence string) are
strictly increasing — original transcript order, never score order. -/
theorem claim_C5 (s : String) (max : Nat)
    (h1 : normWsChars s.data ≠ [])
    (h2 : max < (sentencesOf (normWsChars s.data)).length)
    (h3 : allWords (sentencesOf (normWsChars s.data)) ≠ [])
    (hmax : 1 ≤ max) :
    ∃ sel : List (List Char),
      summarize_text s max = String.mk (joinSep [' '] sel) ∧
      sel ≠ [] ∧
      (∀ x ∈ sel, x ∈ sentencesOf (normWsChars s.data)) ∧
      sel.Pairwise (fun a b =>
        (sentencesOf (normWsChars s.data)).indexOf a <
          (sentencesOf (normWsChars s.data)).indexOf b) := by
  refine ⟨selectedSentences (sentencesOf (normWsChars s.data)) max,
    ?_, ?_, ?_, ?_⟩
  · unfold summarize_text
    rw [summarize_selected s.data max h1 h2 h3 hmax]
  · refine selectedSentences_ne_nil _ max ?_ hmax
    intro h
    rw [h] at h2
    simp at h2
  · exact fun x hx => selectedSentences_mem _ max x hx
  · exact selectedSentences_sorted _ max

theorem claim_C5_witness :
    normWsChars "alpha beta. alpha beta gamma.".data ≠ [] ∧
      1 < (sentencesOf (normWsChars "alpha beta. alpha beta gamma.".data)).length ∧
      allWords (sentencesOf (normWsChars "alpha beta. alpha beta gamma.".data)) ≠ [] ∧
      ∃ sel : List (List Char),
        summarize_text "alpha beta. alpha beta gamma." 1 =
          String.mk (joinSep [' '] sel) ∧
        sel ≠ [] ∧
        (∀ x ∈ sel,
          x ∈ sentencesOf (normWsChars "alpha beta. alpha beta gamma.".data)) ∧
        sel.Pairwise (fun a b =>
          (sentencesOf (normWsChars "alpha beta. alpha beta gamma.".data)).indexOf a <
            (sentencesOf (normWsChars "alpha beta. alpha beta gamma.".data)).indexOf b) :=
  ⟨by decide, by decide, by decide,
    claim_C5 "alpha beta. alpha beta gamma." 1 (by decide) (by decide)
      (by decide) (by decide)⟩

/-- Claim C10: sentence scores are keyed by the exact sentence string, so a
sentence occurring several times is scored once and appears at most once in
the summary (the selection is duplicate-free).  When the transcript has
more than maxSentences sentence occurrences but fewer than maxSentences
distinct sentences, the summary consists of exactly the distinct sentences
— fewer than maxSentences of them — reordered by first-occurrence index. -/
theorem claim_C10 (s : String) (max : Nat)
    (h1 : normWsChars s.data ≠ [])
    (h2 : max < (sentencesOf (normWsChars s.data)).length)
    (h3 : allWords (sentencesOf (normWsChars s.data)) ≠ [])
    (h5 : (firstOccur (sentencesOf (normWsChars s.data))).length < max) :
    ∃ sel : List (List Char),
      summarize_text s max = String.mk (joinSep [' '] sel) ∧
      sel.Nodup ∧
      sel.length = (firstOccur (sentencesOf (normWsChars s.data))).length ∧
      sel.length < max ∧
      sel.Pairwise (fun a b =>
        (sentencesOf (normWsChars s.data)).indexOf a <
          (sentencesOf (normWsChars s.data)).indexOf b) := by
  have hts : sentencesOf (normWsChars s.data) ≠ [] := by
    intro h
    rw [h] at h2
    simp at h2
  have hfo := firstOccur_ne_nil _ hts
  have hfl : 1 ≤ (firstOccur (sentencesOf (normWsChars s.data))).length := by
    cases h : firstOccur (sentencesOf (normWsChars s.data)) with
    | nil => exact absurd h hfo
    | cons a l => simp
  have hmax : 1 ≤ max := by omega
  refine ⟨selectedSentences (sentencesOf (normWsChars s.data)) max, ?_,
    selectedSentences_nodup _ max, ?_, ?_, selectedSentences_sorted _ max⟩
  · unfold summarize_text
    rw [summarize_selected s.data max h1 h2 h3 hmax]
  · rw [selectedSentences_length, Nat.min_eq_right (Nat.le_of_lt h5)]
  · rw [selectedSentences_length, Nat.min_eq_right (Nat.le_of_lt h5)]
    exact h5

theorem claim_C10_witness :
    normWsChars "alpha beta. alpha beta. alpha beta.".data ≠ [] ∧
      2 < (sentencesOf (normWsChars "alpha beta. alpha beta. alpha beta.".data)).length ∧
      allWords (sentencesOf (normWsChars "alpha beta. alpha beta. alpha beta.".data)) ≠ [] ∧
      (firstOccur (sentencesOf (normWsChars "alpha beta. alpha beta. alpha beta.".data))).length < 2 ∧
      ∃ sel : List (List Char),
        summarize_text "alpha beta. alpha beta. alpha beta." 2 =
          String.mk (joinSep [' '] sel) ∧
        sel.Nodup ∧
        sel.length =
          (firstOccur (sentencesOf (normWsChars "alpha beta. alpha beta. alpha beta.".data))).length ∧
        sel.length < 2 ∧
        sel.Pairwise (fun a b =>
          (sentencesOf (normWsChars "alpha beta. alpha beta. alpha beta.".data)).indexOf a <
            (sentencesOf (normWsChars "alpha beta. alpha beta. alpha beta.".data)).indexOf b) :=
  ⟨by decide, by decide, by decide, by decide,
    claim_C10 "alpha beta. alpha beta. alpha beta." 2 (by decide) (by decide)
      (by decide) (by decide)⟩

/- ### Helper lemmas: span-freeness of the normalizer (claim C9) -/

theorem append_split_at_cons {α : Type _} {u v a b : List α} {c : α}
    (h : u ++ v = a ++ c :: b) :
    (∃ b2, u = a ++ c :: b2 ∧ b = b2 ++ v) ∨
      (∃ a2, a = u ++ a2 ∧ v = a2 ++ c :: b) := by
  induction u generalizing a with
  | nil => exact Or.inr ⟨a, rfl, h⟩
  | cons x u2 ih =>
    cases a with
    | nil =>
      rw [List.nil_append, List.cons_append, List.cons.injEq] at h
      exact Or.inl ⟨u2, by rw [h.1]; rfl, h.2.symm⟩
    | cons y a2 =>
      rw [List.cons_append, List.cons_append, List.cons.injEq] at h
      rcases ih h.2 with ⟨b2, hb1, hb2⟩ | ⟨a3, ha1, ha2⟩
      · exact Or.inl ⟨b2, by rw [h.1, List.cons_append, hb1], hb2⟩
      · exact Or.inr ⟨a3, by rw [h.1, ha1, List.cons_append], ha2⟩

theorem spanInv_nil : SpanInv [] := by
  intro a b h
  exact absurd h (by simp)

theorem spanInv_cons_iff (c : Char) (cs : List Char) :
    SpanInv (c :: cs) ↔
      ((c = '<' → (cs.head? = some '>' ∨ '>' ∉ cs)) ∧ SpanInv cs) := by
  constructor
  · intro h
    constructor
    · intro hc
      exact h [] cs (by rw [hc]; rfl)
    · intro a b hab
      exact h (c :: a) b (by rw [hab, List.cons_append])
  · rintro ⟨h1, h2⟩ a b hab
    cases a with
    | nil =>
      rw [List.nil_append, List.cons.injEq] at hab
      rw [← hab.2]
      exact h1 hab.1
    | cons x a2 =>
      rw [List.cons_append, List.cons.injEq] at hab
      exact h2 a2 b hab.2

theorem spanInv_of_not_mem_gt (cs : List Char) (h : '>' ∉ cs) :
    SpanInv cs := by
  intro a b hab
  refine Or.inr ?_
  intro hmem
  exact h (by rw [hab]; simp [hmem])

theorem spanInv_not_hasSpan (cs : List Char) (h : SpanInv cs) :
    ¬ HasSpan cs := by
  rintro ⟨a, b, c, hab, hbne, hbmem⟩
  rcases h a (b ++ '>' :: c)
      (by rw [hab, List.append_assoc, List.cons_append]) with h1 | h1
  · cases b with
    | nil => exact hbne rfl
    | cons x b2 =>
      rw [List.cons_append, List.head?_cons, Option.some.injEq] at h1
      exact hbmem (by rw [h1]; simp)
  · exact h1 (by simp)

/- stripTags establishes span-freeness and is the identity on span-free
text. -/

theorem stripTagsGo_spanInv (cs : List Char) :
    SpanInv (stripTagsGo none cs) ∧
      ∀ buf, '>' ∉ buf → SpanInv (stripTagsGo (some buf) cs) := by
  induction cs with
  | nil =>
    refine ⟨spanInv_nil, ?_⟩
    intro buf hbuf
    show SpanInv ('<' :: buf.reverse)
    apply spanInv_of_not_mem_gt
    intro h
    rcases List.mem_cons.mp h with h1 | h1
    · exact absurd h1 (by decide)
    · exact hbuf (List.mem_reverse.mp h1)
  | cons c rest ih =>
    constructor
    · show SpanInv (stripTagsGo none (c :: rest))
      rw [stripTagsGo]
      by_cases hc : c = '<'
      · rw [if_pos hc]
        exact ih.2 [] (by simp)
      · rw [if_neg hc]
        rw [spanInv_cons_iff]
        exact ⟨fun h => absurd h hc, ih.1⟩
    · intro buf hbuf
      show SpanInv (stripTagsGo (some buf) (c :: rest))
      rw [stripTagsGo]
      by_cases hc : c = '>'
      · rw [if_pos hc]
        by_cases hb : buf.isEmpty
        · rw [if_pos hb]
          rw [spanInv_cons_iff]
          refine ⟨fun _ => Or.inl rfl, ?_⟩
          rw [spanInv_cons_iff]
          exact ⟨fun h => absurd h (by decide), ih.1⟩
        · rw [if_neg hb]
          exact ih.1
      · rw [if_neg hc]
        refine ih.2 (c :: buf) ?_
        intro h
        rcases List.mem_cons.mp h with h1 | h1
        · exact hc h1.symm
        · exact hbuf h1

theorem stripTags_spanInv (cs : List Char) : SpanInv (stripTags cs) :=
  (stripTagsGo_spanInv cs).1

theorem stripTagsGo_gtfree (cs : List Char) (h : '>' ∉ cs) :
    stripTagsGo none cs = cs ∧
      ∀ buf, stripTagsGo (some buf) cs = '<' :: buf.reverse ++ cs := by
  induction cs with
  | nil => exact ⟨rfl, fun buf => by simp [stripTagsGo]⟩
  | cons c rest ih =>
    have hc : c ≠ '>' := fun he => h (he ▸ List.mem_cons_self c rest)
    have hrest : '>' ∉ rest := fun hm => h (List.mem_cons_of_mem c hm)
    constructor
    · rw [stripTagsGo]
      by_cases hlt : c = '<'
      · rw [if_pos hlt, (ih hrest).2 []]
        rw [hlt]
        rfl
      · rw [if_neg hlt, (ih hrest).1]
    · intro buf
      rw [stripTagsGo, if_neg hc, (ih hrest).2 (c :: buf)]
      simp

theorem stripTags_eq_of_spanInv (cs : List Char) (h : SpanInv cs) :
    stripTags cs = cs := by
  unfold stripTags
  induction cs with
  | nil => rfl
  | cons c rest ih =>
    rcases (spanInv_cons_iff c rest).mp h with ⟨h1, h2⟩
    by_cases hc : c = '<'
    · subst hc
      rcases h1 rfl with hh | hh
      · cases rest with
        | nil => simp at hh
        | cons x r2 =>
          rw [List.head?_cons, Option.some.injEq] at hh
          subst hh
          have e3 := ih h2
          have e2 : stripTagsGo none ('>' :: r2) =
              '>' :: stripTagsGo none r2 := rfl
          rw [e2, List.cons.injEq] at e3
          show '<' :: '>' :: stripTagsGo none r2 = '<' :: '>' :: r2
          rw [e3.2]
      · show stripTagsGo (some []) rest = '<' :: rest
        rw [(stripTagsGo_gtfree rest hh).2 []]
        rfl
    · show (if c = '<' then stripTagsGo (some []) rest
          else c :: stripTagsGo none rest) = c :: rest
      rw [if_neg hc, ih h2]

/- stripTs is the identity on span-free text: a timestamp match needs a
full <...> span, which span-free text does not contain. -/

theorem stripTsGo_gtfree (cs : List Char) (h : '>' ∉ cs) :
    stripTsGo none cs = cs ∧
      ∀ buf, stripTsGo (some buf) cs = '<' :: buf.reverse ++ cs := by
  induction cs with
  | nil => exact ⟨rfl, fun buf => by simp [stripTsGo]⟩
  | cons c rest ih =>
    have hc : c ≠ '>' := fun he => h (he ▸ List.mem_cons_self c rest)
    have hrest : '>' ∉ rest := fun hm => h (List.mem_cons_of_mem c hm)
    constructor
    · rw [stripTsGo]
      by_cases hlt : c = '<'
      · rw [if_pos hlt, (ih hrest).2 []]
        rw [hlt]
        rfl
      · rw [if_neg hlt, (ih hrest).1]
    · intro buf
      rw [stripTsGo]
      have e1 : ¬ ((decide (c = '>') && decide (10 ≤ buf.length)) = true) := by
        simp [hc]
      rw [if_neg e1]
      by_cases he : tsExpect buf.length c = true
      · rw [if_pos he, (ih hrest).2 (c :: buf)]
        simp [List.append_assoc]
      · rw [if_neg he]
        by_cases hlt : c = '<'
        · rw [if_pos hlt, (ih hrest).2 []]
          rw [hlt]
          simp
        · rw [if_neg hlt, (ih hrest).1]

theorem stripTs_eq_of_spanInv (cs : List Char) (h : SpanInv cs) :
    stripTs cs = cs := by
  unfold stripTs
  induction cs with
  | nil => rfl
  | cons c rest ih =>
    rcases (spanInv_cons_iff c rest).mp h with ⟨h1, h2⟩
    by_cases hc : c = '<'
    · subst hc
      rcases h1 rfl with hh | hh
      · cases rest with
        | nil => simp at hh
        | cons x r2 =>
          rw [List.head?_cons, Option.some.injEq] at hh
          subst hh
          have e3 := ih h2
          have e2 : stripTsGo none ('>' :: r2) =
              '>' :: stripTsGo none r2 := rfl
          rw [e2, List.cons.injEq] at e3
          have e4 : stripTsGo none ('<' :: '>' :: r2) =
              '<' :: '>' :: stripTsGo none r2 := rfl
          rw [e4, e3.2]
      · rw [stripTsGo, if_pos rfl, (stripTsGo_gtfree rest hh).2 []]
        rfl
    · rw [stripTsGo, if_neg hc, ih h2]

/- Whitespace collapse, dot collapse and strip preserve span-freeness. -/

theorem mem_collapseWsGo (b : Bool) (cs : List Char) (x : Char)
    (h : x ∈ collapseWsGo b cs) : x = ' ' ∨ x ∈ cs := by
  induction cs generalizing b with
  | nil => simp [collapseWsGo] at h
  | cons c rest ih =>
    rw [collapseWsGo] at h
    by_cases hw : isWs c = true
    · rw [if_pos hw] at h
      cases b with
      | true =>
        rcases ih true h with h1 | h1
        · exact Or.inl h1
        · exact Or.inr (List.mem_cons_of_mem c h1)
      | false =>
        rcases List.mem_cons.mp h with h1 | h1
        · exact Or.inl h1
        · rcases ih true h1 with h2 | h2
          · exact Or.inl h2
          · exact Or.inr (List.mem_cons_of_mem c h2)
    · rw [if_neg hw] at h
      rcases List.mem_cons.mp h with h1 | h1
      · exact Or.inr (h1 ▸ List.mem_cons_self c rest)
      · rcases ih false h1 with h2 | h2
        · exact Or.inl h2
        · exact Or.inr (List.mem_cons_of_mem c h2)

theorem spanInv_collapseWsGo (b : Bool) (cs : List Char) (h : SpanInv cs) :
    SpanInv (collapseWsGo b cs) := by
  induction cs generalizing b with
  | nil =>
    show SpanInv []
    exact spanInv_nil
  | cons c rest ih =>
    rcases (spanInv_cons_iff c rest).mp h with ⟨h1, h2⟩
    rw [collapseWsGo]
    by_cases hw : isWs c = true
    · rw [if_pos hw]
      cases b with
      | true => exact ih true h2
      | false =>
        rw [if_neg (by decide : ¬ false = true), spanInv_cons_iff]
        exact ⟨fun hlt => absurd hlt (by decide), ih true h2⟩
    · rw [if_neg hw]
      rw [spanInv_cons_iff]
      refine ⟨?_, ih false h2⟩
      intro hlt
      rcases h1 hlt with hh | hh
      · cases rest with
        | nil => simp at hh
        | cons y r2 =>
          rw [List.head?_cons, Option.some.injEq] at hh
          subst hh
          left
          show (collapseWsGo false ('>' :: r2)).head? = some '>'
          rw [collapseWsGo, if_neg (by decide)]
          rfl
      · right
        intro hmem
        rcases mem_collapseWsGo false rest '>' hmem with h3 | h3
        · exact absurd h3 (by decide)
        · exact hh h3

theorem spanInv_collapseWs (cs : List Char) (h : SpanInv cs) :
    SpanInv (collapseWs cs) := spanInv_collapseWsGo false cs h

theorem mem_collapseDotsGo (b : Bool) (cs : List Char) (x : Char)
    (h : x ∈ collapseDotsGo b cs) : x = '.' ∨ x ∈ cs := by
  induction cs generalizing b with
  | nil => simp [collapseDotsGo] at h
  | cons c rest ih =>
    rw [collapseDotsGo] at h
    by_cases hw : c = '.'
    · rw [if_pos hw] at h
      cases b with
      | true =>
        rcases ih true h with h1 | h1
        · exact Or.inl h1
        · exact Or.inr (List.mem_cons_of_mem c h1)
      | false =>
        rcases List.mem_cons.mp h with h1 | h1
        · exact Or.inl h1
        · rcases ih true h1 with h2 | h2
          · exact Or.inl h2
          · exact Or.inr (List.mem_cons_of_mem c h2)
    · rw [if_neg hw] at h
      rcases List.mem_cons.mp h with h1 | h1
      · exact Or.inr (h1 ▸ List.mem_cons_self c rest)
      · rcases ih false h1 with h2 | h2
        · exact Or.inl h2
        · exact Or.inr (List.mem_cons_of_mem c h2)

theorem spanInv_collapseDotsGo (b : Bool) (cs : List Char) (h : SpanInv cs) :
    SpanInv (collapseDotsGo b cs) := by
  induction cs generalizing b with
  | nil =>
    show SpanInv []
    exact spanInv_nil
  | cons c rest ih =>
    rcases (spanInv_cons_iff c rest).mp h with ⟨h1, h2⟩
    rw [collapseDotsGo]
    by_cases hw : c = '.'
    · rw [if_pos hw]
      cases b with
      | true => exact ih true h2
      | false =>
        rw [if_neg (by decide : ¬ false = true), spanInv_cons_iff]
        exact ⟨fun hlt => absurd hlt (by decide), ih true h2⟩
    · rw [if_neg hw]
      rw [spanInv_cons_iff]
      refine ⟨?_, ih false h2⟩
      intro hlt
      rcases h1 hlt with hh | hh
      · cases rest with
        | nil => simp at hh
        | cons y r2 =>
          rw [List.head?_cons, Option.some.injEq] at hh
          subst hh
          left
          show (collapseDotsGo false ('>' :: r2)).head? = some '>'
          rw [collapseDotsGo, if_neg (by decide)]
          rfl
      · right
        intro hmem
        rcases mem_collapseDotsGo false rest '>' hmem with h3 | h3
        · exact absurd h3 (by decide)
        · exact hh h3

theorem spanInv_collapseDots (cs : List Char) (h : SpanInv cs) :
    SpanInv (collapseDots cs) := spanInv_collapseDotsGo false cs h

theorem trim_decomp (cs : List Char) :
    ∃ pre post, cs = pre ++ trimChars cs ++ post ∧
      (∀ x ∈ pre, isWs x = true) ∧ (∀ x ∈ post, isWs x = true) := by
  refine ⟨cs.takeWhile isWs,
    ((cs.dropWhile isWs).reverse.takeWhile isWs).reverse, ?_, ?_, ?_⟩
  · have hd : cs.dropWhile isWs =
        trimChars cs ++ ((cs.dropWhile isWs).reverse.takeWhile isWs).reverse := by
      conv_lhs => rw [← List.reverse_reverse (cs.dropWhile isWs)]
      conv_lhs =>
        rw [← List.takeWhile_append_dropWhile (p := isWs)
          (l := (cs.dropWhile isWs).reverse)]
      rw [List.reverse_append]
      rfl
    conv_lhs => rw [← List.takeWhile_append_dropWhile (p := isWs) (l := cs)]
    conv_lhs => rw [hd]
    rw [← List.append_assoc]
  · intro x hx
    exact List.mem_takeWhile_imp hx
  · intro x hx
    exact List.mem_takeWhile_imp (List.mem_reverse.mp hx)

theorem mem_trim_sub (cs : List Char) (x : Char) (h : x ∈ trimChars cs) :
    x ∈ cs := by
  rcases trim_decomp cs with ⟨pre, post, hdec, _, _⟩
  rw [hdec]
  simp [h]

theorem spanInv_trim (cs : List Char) (h : SpanInv cs) :
    SpanInv (trimChars cs) := by
  rcases trim_decomp cs with ⟨pre, post, hdec, hpre, hpost⟩
  intro a b hab
  have hcs : cs = (pre ++ a) ++ '<' :: (b ++ post) := by
    rw [hdec, hab]
    simp [List.append_assoc]
  rcases h (pre ++ a) (b ++ post) hcs with hh | hh
  · cases b with
    | nil =>
      right
      simp
    | cons y b2 =>
      left
      rw [List.cons_append, List.head?_cons, Option.some.injEq] at hh
      rw [List.head?_cons, hh]
  · right
    intro hm
    exact hh (by simp [hm])

/- Splitting span-free text on a class not containing the angle brackets
yields an InvToks piece list; sublists, trimming and rejoining keep it. -/

theorem tokProp_nil (ts : List (List Char)) : TokProp [] ts := by
  intro a b hab
  exact absurd hab (by simp)

theorem tokProp_of_later_sub (t : List Char) (ts1 ts2 : List (List Char))
    (hsub : ∀ u ∈ ts1, u ∈ ts2) (h : TokProp t ts2) : TokProp t ts1 := by
  intro a b hab
  rcases h a b hab with h1 | ⟨h2, h3⟩
  · exact Or.inl h1
  · exact Or.inr ⟨h2, fun u hu => h3 u (hsub u hu)⟩

theorem splitRunsGo_ne_nil (p : Char → Bool) (b : Bool) (cs : List Char) :
    splitRunsGo p b cs ≠ [] := by
  induction cs generalizing b with
  | nil => simp [splitRunsGo]
  | cons c rest ih =>
    rw [splitRunsGo]
    by_cases hp : p c = true
    · rw [if_pos hp]
      cases b with
      | true => exact ih true
      | false => simp
    · rw [if_neg hp]
      cases h : splitRunsGo p false rest with
      | nil => simp
      | cons t ts => simp

theorem mem_splitRunsGo (p : Char → Bool) (b : Bool) (cs : List Char)
    (u : List Char) (x : Char) (hu : u ∈ splitRunsGo p b cs) (hx : x ∈ u) :
    x ∈ cs := by
  induction cs generalizing b u with
  | nil =>
    rw [splitRunsGo] at hu
    rw [List.mem_singleton] at hu
    subst hu
    simp at hx
  | cons c rest ih =>
    rw [splitRunsGo] at hu
    by_cases hp : p c = true
    · rw [if_pos hp] at hu
      cases b with
      | true => exact List.mem_cons_of_mem c (ih true u hu hx)
      | false =>
        rcases List.mem_cons.mp hu with h1 | h1
        · subst h1
          simp at hx
        · exact List.mem_cons_of_mem c (ih true u h1 hx)
    · rw [if_neg hp] at hu
      cases hsp : splitRunsGo p false rest with
      | nil => exact absurd hsp (splitRunsGo_ne_nil p false rest)
      | cons t ts =>
        rw [hsp] at hu
        rcases List.mem_cons.mp hu with h1 | h1
        · subst h1
          rcases List.mem_cons.mp hx with h2 | h2
          · exact h2 ▸ List.mem_cons_self c rest
          · refine List.mem_cons_of_mem c (ih false t ?_ h2)
            rw [hsp]
            exact List.mem_cons_self t ts
        · refine List.mem_cons_of_mem c (ih false u ?_ hx)
          rw [hsp]
          exact List.mem_cons_of_mem t h1

theorem invToks_splitRunsGo (p : Char → Bool) (hp : p '>' = false)
    (cs : List Char) (h : SpanInv cs) :
    ∀ b, InvToks (splitRunsGo p b cs) := by
  induction cs with
  | nil =>
    intro b
    rw [splitRunsGo]
    exact ⟨tokProp_nil [], trivial⟩
  | cons c rest ih =>
    intro b
    rcases (spanInv_cons_iff c rest).mp h with ⟨h1, h2⟩
    rw [splitRunsGo]
    by_cases hpc : p c = true
    · rw [if_pos hpc]
      cases b with
      | true => exact ih h2 true
      | false =>
        rw [if_neg (by decide : ¬ false = true)]
        exact ⟨tokProp_nil _, ih h2 true⟩
    · rw [if_neg hpc]
      cases hsp : splitRunsGo p false rest with
      | nil => exact absurd hsp (splitRunsGo_ne_nil p false rest)
      | cons t ts =>
        have hrest := ih h2 false
        rw [hsp] at hrest
        rcases hrest with ⟨htp, hts⟩
        refine ⟨?_, hts⟩
        intro a bb hab
        cases a with
        | nil =>
          rw [List.nil_append, List.cons.injEq] at hab
          obtain ⟨hc, hbb⟩ := hab
          subst hbb
          rcases h1 hc with hh | hh
          · cases rest with
            | nil => simp at hh
            | cons y r2 =>
              rw [List.head?_cons, Option.some.injEq] at hh
              subst hh
              left
              rw [splitRunsGo, if_neg (by simp [hp])] at hsp
              cases hsp2 : splitRunsGo p false r2 with
              | nil => exact absurd hsp2 (splitRunsGo_ne_nil p false r2)
              | cons t2 ts2 =>
                rw [hsp2] at hsp
                rw [List.cons.injEq] at hsp
                rw [← hsp.1]
                rfl
          · right
            constructor
            · intro hm
              have : ('>' : Char) ∈ rest := by
                refine mem_splitRunsGo p false rest t '>' ?_ hm
                rw [hsp]
                exact List.mem_cons_self t ts
              exact hh this
            · intro u hu hm
              have : ('>' : Char) ∈ rest := by
                refine mem_splitRunsGo p false rest u '>' ?_ hm
                rw [hsp]
                exact List.mem_cons_of_mem t hu
              exact hh this
        | cons a0 a2 =>
          rw [List.cons_append, List.cons.injEq] at hab
          exact htp a2 bb hab.2

theorem invToks_sublist (ts1 ts2 : List (List Char)) (hs : List.Sublist ts1 ts2)
    (h : InvToks ts2) : InvToks ts1 := by
  induction hs with
  | slnil => trivial
  | cons a hsub ih =>
    rcases h with ⟨_, h2⟩
    exact ih h2
  | cons₂ a hsub ih =>
    rcases h with ⟨h1, h2⟩
    exact ⟨tokProp_of_later_sub _ _ _ (fun u hu => hsub.subset hu) h1, ih h2⟩

theorem invToks_map_trim (ts : List (List Char)) (h : InvToks ts) :
    InvToks (ts.map trimChars) := by
  induction ts with
  | nil => trivial
  | cons t ts ih =>
    rcases h with ⟨h1, h2⟩
    refine ⟨?_, ih h2⟩
    intro a b hab
    rcases trim_decomp t with ⟨pre, post, hdec, hpre, hpost⟩
    have ht : t = (pre ++ a) ++ '<' :: (b ++ post) := by
      rw [hdec, hab]
      simp [List.append_assoc]
    rcases h1 (pre ++ a) (b ++ post) ht with hh | ⟨hh1, hh2⟩
    · cases b with
      | nil =>
        exfalso
        rw [List.nil_append] at hh
        cases post with
        | nil => simp at hh
        | cons z post2 =>
          rw [List.head?_cons, Option.some.injEq] at hh
          have := hpost z (List.mem_cons_self z post2)
          rw [hh] at this
          exact absurd this (by decide)
      | cons y b2 =>
        left
        rw [List.cons_append, List.head?_cons, Option.some.injEq] at hh
        rw [List.head?_cons, hh]
    · right
      constructor
      · intro hm
        exact hh1 (by simp [hm])
      · intro u2 hu2 hm
        rcases List.mem_map.mp hu2 with ⟨u, hu, rfl⟩
        exact hh2 u hu (mem_trim_sub u '>' hm)

theorem uniqueAppend_sublist (ss acc : List (List Char)) :
    List.Sublist (uniqueAppend ss acc) (acc ++ ss.map trimChars) := by
  induction ss generalizing acc with
  | nil =>
    simp only [uniqueAppend, List.map_nil, List.append_nil]
    exact List.Sublist.refl acc
  | cons s ss ih =>
    simp only [uniqueAppend, List.map_cons]
    by_cases hc : (!(trimChars s).isEmpty && !(acc.contains (trimChars s))) = true
    · rw [if_pos hc]
      have := ih (acc ++ [trimChars s])
      rw [List.append_assoc] at this
      exact this
    · rw [if_neg hc]
      refine (ih acc).trans ?_
      refine List.Sublist.append_left ?_ acc
      exact List.sublist_cons_self (trimChars s) (ss.map trimChars)

theorem not_mem_joinSep (sep : List Char) (x : Char) (ts : List (List Char))
    (hsep : x ∉ sep) (h : ∀ u ∈ ts, x ∉ u) : x ∉ joinSep sep ts := by
  induction ts with
  | nil => simp [joinSep]
  | cons t ts ih =>
    cases ts with
    | nil =>
      show x ∉ t
      exact h t (List.mem_cons_self t [])
    | cons t2 ts2 =>
      intro hm
      have hm2 : x ∈ (t ++ sep) ++ joinSep sep (t2 :: ts2) := hm
      rcases List.mem_append.mp hm2 with h1 | h1
      · rcases List.mem_append.mp h1 with h2 | h2
        · exact h t (List.mem_cons_self t _) h2
        · exact hsep h2
      · exact ih (fun u hu => h u (List.mem_cons_of_mem t hu)) h1

theorem spanInv_append (u v : List Char)
    (hu : ∀ a b, u = a ++ '<' :: b →
      b.head? = some '>' ∨ ('>' ∉ b ∧ '>' ∉ v))
    (hv : SpanInv v) : SpanInv (u ++ v) := by
  intro a b hab
  rcases append_split_at_cons hab with ⟨b2, hu1, hb⟩ | ⟨a2, ha, hv2⟩
  · rcases hu a b2 hu1 with hh | ⟨hh1, hh2⟩
    · cases b2 with
      | nil => simp at hh
      | cons y b3 =>
        rw [List.head?_cons, Option.some.injEq] at hh
        left
        rw [hb, List.cons_append, List.head?_cons, hh]
    · right
      rw [hb]
      intro hm
      rcases List.mem_append.mp hm with h1 | h1
      · exact hh1 h1
      · exact hh2 h1
  · exact hv a2 b hv2

theorem spanInv_joinSep (sep : List Char) (ts : List (List Char))
    (hlt : '<' ∉ sep) (hgt : '>' ∉ sep) (h : InvToks ts) :
    SpanInv (joinSep sep ts) := by
  induction ts with
  | nil => exact spanInv_nil
  | cons t ts ih =>
    rcases h with ⟨h1, h2⟩
    cases ts with
    | nil =>
      show SpanInv t
      intro a b hab
      rcases h1 a b hab with hh | ⟨hh1, _⟩
      · exact Or.inl hh
      · exact Or.inr hh1
    | cons t2 ts2 =>
      show SpanInv (t ++ sep ++ joinSep sep (t2 :: ts2))
      rw [List.append_assoc]
      apply spanInv_append
      · intro a b hab
        rcases h1 a b hab with hh | ⟨hh1, hh2⟩
        · exact Or.inl hh
        · refine Or.inr ⟨hh1, ?_⟩
          intro hm
          rcases List.mem_append.mp hm with h3 | h3
          · exact hgt h3
          · exact not_mem_joinSep sep '>' (t2 :: ts2) hgt hh2 h3
      · apply spanInv_append
        · intro a b hab
          exfalso
          exact hlt (by rw [hab]; simp)
        · exact ih h2

theorem dedupAdjGo_sublist (prev : List Char) (ws : List (List Char)) :
    List.Sublist (dedupAdjGo prev ws) ws := by
  induction ws generalizing prev with
  | nil => exact List.Sublist.refl []
  | cons w ws ih =>
    rw [dedupAdjGo]
    by_cases hc : lowerW w = lowerW prev
    · rw [if_pos hc]
      exact (ih w).trans (List.sublist_cons_self w ws)
    · rw [if_neg hc]
      exact (ih w).cons₂ w

theorem dedupAdj_sublist (ws : List (List Char)) :
    List.Sublist (dedupAdj ws) ws := by
  cases ws with
  | nil => exact List.Sublist.refl []
  | cons w ws => exact (dedupAdjGo_sublist w ws).cons₂ w

/-- Span-freeness of the full normalizer output: every pipeline stage after
the angle-bracket removal preserves it. -/
theorem cleanChars_spanInv (cs : List Char) : SpanInv (cleanChars cs) := by
  rw [cleanChars]
  by_cases hz : cs.isEmpty = true
  · rw [if_pos hz]
    cases cs with
    | nil => exact spanInv_nil
    | cons c l => simp at hz
  · rw [if_neg hz]
    show SpanInv (collapseDots (trimChars (collapseWs (joinSep ['.', ' ']
      (uniqueAppend (splitRuns isTerm (trimChars (collapseWs (joinSep [' ']
        (dedupAdj (pySplitWs (stripTs (stripTags cs)))))))) [])))))
    have i1 : SpanInv (stripTags cs) := stripTags_spanInv cs
    rw [stripTs_eq_of_spanInv _ i1]
    have i2 : InvToks (pySplitWs (stripTags cs)) := by
      unfold pySplitWs splitRuns
      exact invToks_sublist _ _ (List.filter_sublist _)
        (invToks_splitRunsGo isWs (by decide) _ i1 false)
    have i3 : InvToks (dedupAdj (pySplitWs (stripTags cs))) :=
      invToks_sublist _ _ (dedupAdj_sublist _) i2
    have i4 : SpanInv (joinSep [' '] (dedupAdj (pySplitWs (stripTags cs)))) :=
      spanInv_joinSep [' '] _ (by decide) (by decide) i3
    have i5 : SpanInv (trimChars (collapseWs (joinSep [' ']
        (dedupAdj (pySplitWs (stripTags cs)))))) :=
      spanInv_trim _ (spanInv_collapseWs _ i4)
    have i6 : InvToks (splitRuns isTerm (trimChars (collapseWs (joinSep [' ']
        (dedupAdj (pySplitWs (stripTags cs))))))) := by
      unfold splitRuns
      exact invToks_splitRunsGo isTerm (by decide) _ i5 false
    have i7 : InvToks (uniqueAppend (splitRuns isTerm (trimChars (collapseWs
        (joinSep [' '] (dedupAdj (pySplitWs (stripTags cs))))))) []) := by
      refine invToks_sublist _ _ ?_ (invToks_map_trim _ i6)
      have := uniqueAppend_sublist (splitRuns isTerm (trimChars (collapseWs
        (joinSep [' '] (dedupAdj (pySplitWs (stripTags cs))))))) []
      rw [List.nil_append] at this
      exact this
    have i8 : SpanInv (joinSep ['.', ' '] (uniqueAppend (splitRuns isTerm
        (trimChars (collapseWs (joinSep [' '] (dedupAdj (pySplitWs
          (stripTags cs))))))) [])) :=
      spanInv_joinSep _ _ (by decide) (by decide) i7
    exact spanInv_collapseDots _ (spanInv_trim _ (spanInv_collapseWs _ i8))

/-- Claim C9: for every input string, the normalizer's output contains no
angle-bracket-delimited span: no substring consisting of '<', one or more
characters none of which is '>', and a closing '>' (the pattern of the
removal regex) survives normalization. -/
theorem claim_C9 (s : String) : ¬ HasSpan (clean_transcript s).data :=
  spanInv_not_hasSpan _ (cleanChars_spanInv s.data)

theorem claim_C9_witness : ¬ HasSpan (clean_transcript "a <b> c <d").data :=
  claim_C9 "a <b> c <d"

/- ### Helper lemmas: idempotence on plain inputs (claim C4) -/

theorem spanInv_of_not_mem_lt (cs : List Char) (h : '<' ∉ cs) :
    SpanInv cs := by
  intro a b hab
  exact absurd (show ('<' : Char) ∈ cs by rw [hab]; simp) h

theorem splitRunsGo_no_p (p : Char → Bool) (b : Bool) (cs : List Char)
    (u : List Char) (hu : u ∈ splitRunsGo p b cs) :
    ∀ x ∈ u, p x = false := by
  induction cs generalizing b u with
  | nil =>
    rw [splitRunsGo, List.mem_singleton] at hu
    subst hu
    intro x hx
    simp at hx
  | cons c rest ih =>
    rw [splitRunsGo] at hu
    by_cases hp : p c = true
    · rw [if_pos hp] at hu
      cases b with
      | true => exact ih true u hu
      | false =>
        rcases List.mem_cons.mp hu with h1 | h1
        · subst h1
          intro x hx
          simp at hx
        · exact ih true u h1
    · rw [if_neg hp] at hu
      cases hsp : splitRunsGo p false rest with
      | nil => exact absurd hsp (splitRunsGo_ne_nil p false rest)
      | cons t ts =>
        rw [hsp] at hu
        rcases List.mem_cons.mp hu with h1 | h1
        · subst h1
          intro x hx
          rcases List.mem_cons.mp hx with h2 | h2
          · rw [h2]
            simpa using hp
          · exact ih false t (hsp ▸ List.mem_cons_self t ts) x h2
        · exact ih false u (hsp ▸ List.mem_cons_of_mem t h1)

theorem splitRuns_no_p_eq (p : Char → Bool) (cs : List Char)
    (h : ∀ x ∈ cs, p x = false) : splitRunsGo p false cs = [cs] := by
  induction cs with
  | nil => rfl
  | cons c rest ih =>
    rw [splitRunsGo]
    have hc : ¬ p c = true := by
      rw [h c (List.mem_cons_self c rest)]
      simp
    rw [if_neg hc, ih (fun x hx => h x (List.mem_cons_of_mem c hx))]

theorem mem_joinSep_sub (sep : List Char) (ts : List (List Char)) (x : Char)
    (h : x ∈ joinSep sep ts) : x ∈ sep ∨ ∃ u ∈ ts, x ∈ u := by
  induction ts with
  | nil => simp [joinSep] at h
  | cons t ts ih =>
    cases ts with
    | nil => exact Or.inr ⟨t, List.mem_cons_self t [], h⟩
    | cons t2 ts2 =>
      have h2 : x ∈ (t ++ sep) ++ joinSep sep (t2 :: ts2) := h
      rcases List.mem_append.mp h2 with h3 | h3
      · rcases List.mem_append.mp h3 with h4 | h4
        · exact Or.inr ⟨t, List.mem_cons_self t _, h4⟩
        · exact Or.inl h4
      · rcases ih h3 with h4 | ⟨u, hu, hx⟩
        · exact Or.inl h4
        · exact Or.inr ⟨u, List.mem_cons_of_mem t hu, hx⟩

theorem collapseWsGo_no_ws (b : Bool) (cs : List Char)
    (h : ∀ x ∈ cs, isWs x = false) : collapseWsGo b cs = cs := by
  induction cs generalizing b with
  | nil => rfl
  | cons c rest ih =>
    rw [collapseWsGo]
    have hc : ¬ isWs c = true := by
      rw [h c (List.mem_cons_self c rest)]
      simp
    rw [if_neg hc, ih false (fun x hx => h x (List.mem_cons_of_mem c hx))]

theorem collapseWsGo_prefix_no_ws (t w : List Char)
    (h : ∀ x ∈ t, isWs x = false) :
    collapseWsGo false (t ++ ' ' :: w) = t ++ ' ' :: collapseWsGo true w := by
  induction t with
  | nil =>
    rw [List.nil_append, collapseWsGo, if_pos (by decide)]
    rfl
  | cons c t2 ih =>
    rw [List.cons_append, collapseWsGo]
    have hc : ¬ isWs c = true := by
      rw [h c (List.mem_cons_self c t2)]
      simp
    rw [if_neg hc, ih (fun x hx => h x (List.mem_cons_of_mem c hx))]
    rfl

theorem collapseWsGo_true_eq_false (w : List Char)
    (h : ∀ x1 w2, w = x1 :: w2 → isWs x1 = false) :
    collapseWsGo true w = collapseWsGo false w := by
  cases w with
  | nil => rfl
  | cons c rest =>
    rw [collapseWsGo, collapseWsGo]
    have hc : ¬ isWs c = true := by
      rw [h c rest rfl]
      simp
    rw [if_neg hc, if_neg hc]

theorem collapseWs_joinSep (toks : List (List Char))
    (h : ∀ u ∈ toks, u ≠ [] ∧ ∀ x ∈ u, isWs x = false) :
    collapseWs (joinSep [' '] toks) = joinSep [' '] toks := by
  induction toks with
  | nil => rfl
  | cons t toks2 ih =>
    cases toks2 with
    | nil =>
      show collapseWsGo false t = t
      exact collapseWsGo_no_ws false t (h t (List.mem_cons_self t [])).2
    | cons t2 ts2 =>
      have hj : joinSep [' '] (t :: t2 :: ts2) =
          t ++ ' ' :: joinSep [' '] (t2 :: ts2) := by
        show t ++ [' '] ++ joinSep [' '] (t2 :: ts2) = _
        rw [List.append_assoc]
        rfl
      rw [hj]
      show collapseWsGo false (t ++ ' ' :: joinSep [' '] (t2 :: ts2)) =
        t ++ ' ' :: joinSep [' '] (t2 :: ts2)
      rw [collapseWsGo_prefix_no_ws t _ (h t (List.mem_cons_self t _)).2]
      have hhead : ∀ x1 w2, joinSep [' '] (t2 :: ts2) = x1 :: w2 →
          isWs x1 = false := by
        intro x1 w2 hw
        rcases joinSep_cons_ex [' '] t2 ts2 with ⟨x, hx⟩
        rcases h t2 (List.mem_cons_of_mem t (List.mem_cons_self t2 ts2)) with
          ⟨hne, hws⟩
        rcases List.exists_cons_of_ne_nil hne with ⟨c, l, rfl⟩
        rw [hx, List.cons_append, List.cons.injEq] at hw
        rw [← hw.1]
        exact hws c (List.mem_cons_self c l)
      rw [collapseWsGo_true_eq_false _ hhead]
      have ih2 : collapseWsGo false (joinSep [' '] (t2 :: ts2)) =
          joinSep [' '] (t2 :: ts2) :=
        ih (fun u hu => h u (List.mem_cons_of_mem t hu))
      rw [ih2]

theorem collapseDotsGo_no_dot (b : Bool) (cs : List Char)
    (h : ∀ x ∈ cs, x ≠ '.') : collapseDotsGo b cs = cs := by
  induction cs generalizing b with
  | nil => rfl
  | cons c rest ih =>
    rw [collapseDotsGo, if_neg (h c (List.mem_cons_self c rest)),
      ih false (fun x hx => h x (List.mem_cons_of_mem c hx))]

theorem trim_eq_self (cs : List Char)
    (hhead : ∀ c l, cs = c :: l → isWs c = false)
    (hlast : ∀ c l, cs = l ++ [c] → isWs c = false) :
    trimChars cs = cs := by
  unfold trimChars
  rw [dropWhile_eq_self_of_head isWs cs hhead]
  rcases List.eq_nil_or_concat cs with h | ⟨l, c, hc⟩
  · rw [h]
    rfl
  · rw [List.concat_eq_append] at hc
    have hrev : cs.reverse = c :: l.reverse := by
      rw [hc, List.reverse_append, List.reverse_singleton]
      rfl
    rw [hrev, List.dropWhile_cons]
    have hcw : ¬ isWs c = true := by
      rw [hlast c l hc]
      simp
    rw [if_neg hcw, ← hrev, List.reverse_reverse]

theorem joinSep_ends (toks : List (List Char)) (hne : toks ≠ [])
    (h : ∀ u ∈ toks, u ≠ [] ∧ ∀ x ∈ u, isWs x = false) :
    ∃ c cs2, joinSep [' '] toks = cs2 ++ [c] ∧ isWs c = false := by
  induction toks with
  | nil => exact absurd rfl hne
  | cons t toks2 ih =>
    cases toks2 with
    | nil =>
      rcases h t (List.mem_cons_self t []) with ⟨htne, hws⟩
      rcases List.eq_nil_or_concat t with h1 | ⟨l, c, hc⟩
      · exact absurd h1 htne
      · rw [List.concat_eq_append] at hc
        refine ⟨c, l, hc, hws c ?_⟩
        rw [hc]
        simp
    | cons t2 ts2 =>
      rcases ih (by simp) (fun u hu => h u (List.mem_cons_of_mem t hu)) with
        ⟨c, cs2, hj, hcw⟩
      refine ⟨c, (t ++ [' ']) ++ cs2, ?_, hcw⟩
      show t ++ [' '] ++ joinSep [' '] (t2 :: ts2) = t ++ [' '] ++ cs2 ++ [c]
      rw [hj, ← List.append_assoc]

/- The word-dedup loop leaves no adjacent case-insensitive duplicates, and
is the identity on lists without them. -/

theorem dedupAdjGo_chain (ws : List (List Char)) (prev : List Char) :
    List.Chain' (fun a b => lowerW a ≠ lowerW b) (dedupAdjGo prev ws) ∧
      ∀ h hs, dedupAdjGo prev ws = h :: hs → lowerW h ≠ lowerW prev := by
  induction ws generalizing prev with
  | nil =>
    exact ⟨List.chain'_nil, fun h hs he => absurd he (by simp [dedupAdjGo])⟩
  | cons w ws ih =>
    by_cases hc : lowerW w = lowerW prev
    · constructor
      · rw [dedupAdjGo, if_pos hc]
        exact (ih w).1
      · intro h hs he
        rw [dedupAdjGo, if_pos hc] at he
        have := (ih w).2 h hs he
        rw [hc] at this
        exact this
    · constructor
      · rw [dedupAdjGo, if_neg hc]
        cases hgo : dedupAdjGo w ws with
        | nil => exact List.chain'_singleton w
        | cons h hs =>
          refine List.Chain'.cons ?_ (hgo ▸ (ih w).1)
          exact fun he => (ih w).2 h hs hgo he.symm
      · intro h hs he
        rw [dedupAdjGo, if_neg hc, List.cons.injEq] at he
        rw [← he.1]
        exact hc

theorem dedupAdj_chain (ws : List (List Char)) :
    List.Chain' (fun a b => lowerW a ≠ lowerW b) (dedupAdj ws) := by
  cases ws with
  | nil => exact List.chain'_nil
  | cons w ws =>
    show List.Chain' (fun a b => lowerW a ≠ lowerW b) (w :: dedupAdjGo w ws)
    cases hgo : dedupAdjGo w ws with
    | nil => exact List.chain'_singleton w
    | cons h hs =>
      refine List.Chain'.cons ?_ (hgo ▸ (dedupAdjGo_chain ws w).1)
      exact fun he => (dedupAdjGo_chain ws w).2 h hs hgo he.symm

theorem dedupAdjGo_eq_self (ws : List (List Char)) (prev : List Char)
    (hchain : List.Chain' (fun a b => lowerW a ≠ lowerW b) ws)
    (hh : ∀ h hs, ws = h :: hs → lowerW h ≠ lowerW prev) :
    dedupAdjGo prev ws = ws := by
  induction ws generalizing prev with
  | nil => rfl
  | cons w ws ih =>
    rw [dedupAdjGo, if_neg (hh w ws rfl)]
    rcases List.chain'_cons'.mp hchain with ⟨hhead, htail⟩
    rw [ih w htail ?_]
    intro h hs he
    have := hhead h (Option.mem_def.mpr (by rw [he]; rfl))
    exact fun hex => this hex.symm

theorem dedupAdj_eq_self (ws : List (List Char))
    (hchain : List.Chain' (fun a b => lowerW a ≠ lowerW b) ws) :
    dedupAdj ws = ws := by
  cases ws with
  | nil => rfl
  | cons w ws =>
    show w :: dedupAdjGo w ws = w :: ws
    rcases List.chain'_cons'.mp hchain with ⟨hhead, htail⟩
    rw [dedupAdjGo_eq_self ws w htail ?_]
    intro h hs he
    have := hhead h (Option.mem_def.mpr (by rw [he]; rfl))
    exact fun hex => this hex.symm

/- Splitting the space-joined token list recovers the token list. -/

theorem joinSep_space_cons (t t2 : List Char) (ts2 : List (List Char)) :
    joinSep [' '] (t :: t2 :: ts2) = t ++ ' ' :: joinSep [' '] (t2 :: ts2) := by
  show t ++ [' '] ++ joinSep [' '] (t2 :: ts2) = _
  rw [List.append_assoc]
  rfl

theorem joinSep_head_not_ws (t2 : List Char) (ts2 : List (List Char))
    (h : ∀ u ∈ t2 :: ts2, u ≠ [] ∧ ∀ x ∈ u, isWs x = false) :
    ∀ x1 w2, joinSep [' '] (t2 :: ts2) = x1 :: w2 → isWs x1 = false := by
  intro x1 w2 hw
  rcases joinSep_cons_ex [' '] t2 ts2 with ⟨x, hx⟩
  rcases h t2 (List.mem_cons_self t2 ts2) with ⟨hne, hws⟩
  rcases List.exists_cons_of_ne_nil hne with ⟨c, l, rfl⟩
  rw [hx, List.cons_append, List.cons.injEq] at hw
  rw [← hw.1]
  exact hws c (List.mem_cons_self c l)

theorem splitRunsGo_append_sep (p : Char → Bool) (sepc : Char)
    (t w : List Char) (hsep : p sepc = true)
    (ht : ∀ x ∈ t, p x = false) :
    splitRunsGo p false (t ++ sepc :: w) = t :: splitRunsGo p true w := by
  induction t with
  | nil =>
    rw [List.nil_append, splitRunsGo, if_pos hsep,
      if_neg (by decide : ¬ false = true)]
  | cons c t2 ih =>
    rw [List.cons_append, splitRunsGo]
    have hc : ¬ p c = true := by
      rw [ht c (List.mem_cons_self c t2)]
      simp
    rw [if_neg hc, ih (fun x hx => ht x (List.mem_cons_of_mem c hx))]

theorem splitRunsGo_true_eq_false (p : Char → Bool) (w : List Char)
    (h : ∀ x1 w2, w = x1 :: w2 → p x1 = false) :
    splitRunsGo p true w = splitRunsGo p false w := by
  cases w with
  | nil => rfl
  | cons c rest =>
    rw [splitRunsGo, splitRunsGo]
    have hc : ¬ p c = true := by
      rw [h c rest rfl]
      simp
    rw [if_neg hc, if_neg hc]

theorem pySplitWs_joinSep (toks : List (List Char))
    (h : ∀ u ∈ toks, u ≠ [] ∧ ∀ x ∈ u, isWs x = false) :
    pySplitWs (joinSep [' '] toks) = toks := by
  induction toks with
  | nil => rfl
  | cons t toks2 ih =>
    cases toks2 with
    | nil =>
      show ((splitRunsGo isWs false t).filter fun u => !u.isEmpty) = [t]
      rw [splitRuns_no_p_eq isWs t (h t (List.mem_cons_self t [])).2]
      rcases h t (List.mem_cons_self t []) with ⟨hne, _⟩
      have hemp : (!t.isEmpty) = true := by
        cases t with
        | nil => exact absurd rfl hne
        | cons c l => rfl
      simp [List.filter, hemp]
    | cons t2 ts2 =>
      show ((splitRunsGo isWs false
        (joinSep [' '] (t :: t2 :: ts2))).filter fun u => !u.isEmpty) = _
      rw [joinSep_space_cons,
        splitRunsGo_append_sep isWs ' ' t _ (by decide)
          (h t (List.mem_cons_self t _)).2,
        splitRunsGo_true_eq_false isWs _
          (joinSep_head_not_ws t2 ts2
            (fun u hu => h u (List.mem_cons_of_mem t hu)))]
      have hemp : (!t.isEmpty) = true := by
        rcases h t (List.mem_cons_self t _) with ⟨hne, _⟩
        cases t with
        | nil => exact absurd rfl hne
        | cons c l => rfl
      rw [List.filter_cons, if_pos hemp]
      have ih2 : ((splitRunsGo isWs false
          (joinSep [' '] (t2 :: ts2))).filter fun u => !u.isEmpty) =
            t2 :: ts2 :=
        ih (fun u hu => h u (List.mem_cons_of_mem t hu))
      rw [ih2]

/- Token properties of the word-dedup stage. -/

theorem pySplitWs_tok_props (cs : List Char) (u : List Char)
    (hu : u ∈ pySplitWs cs) :
    u ≠ [] ∧ (∀ x ∈ u, isWs x = false) ∧ ∀ x ∈ u, x ∈ cs := by
  unfold pySplitWs splitRuns at hu
  rcases List.mem_filter.mp hu with ⟨hu1, hu2⟩
  refine ⟨?_, fun x hx => splitRunsGo_no_p isWs false cs u hu1 x hx,
    fun x hx => mem_splitRunsGo isWs false cs u x hu1 hx⟩
  intro hnil
  rw [hnil] at hu2
  simp at hu2

theorem dedupAdj_tok_props (cs : List Char) (u : List Char)
    (hu : u ∈ dedupAdj (pySplitWs cs)) :
    u ≠ [] ∧ (∀ x ∈ u, isWs x = false) ∧ ∀ x ∈ u, x ∈ cs :=
  pySplitWs_tok_props cs u ((dedupAdj_sublist _).subset hu)

/-- On plain input — no angle bracket, no sentence terminator — the
normalizer reduces to whitespace-splitting, adjacent-duplicate-word removal
and rejoining with single spaces: the regex removals are identities, the
whitespace collapse and strip are identities on the space-joined tokens,
and the sentence stage sees a single terminator-free sentence. -/
theorem cleanChars_plain (cs : List Char)
    (h : ∀ x ∈ cs, x ≠ '<' ∧ isTerm x = false) :
    cleanChars cs = joinSep [' '] (dedupAdj (pySplitWs cs)) := by
  rw [cleanChars]
  by_cases hz : cs.isEmpty = true
  · rw [if_pos hz]
    cases cs with
    | nil => rfl
    | cons c l => simp at hz
  · rw [if_neg hz]
    show collapseDots (trimChars (collapseWs (joinSep ['.', ' ']
      (uniqueAppend (splitRuns isTerm (trimChars (collapseWs (joinSep [' ']
        (dedupAdj (pySplitWs (stripTs (stripTags cs)))))))) [])))) = _
    have hlt : '<' ∉ cs := fun hm => (h '<' hm).1 rfl
    have hsi : SpanInv cs := spanInv_of_not_mem_lt cs hlt
    rw [stripTags_eq_of_spanInv cs hsi, stripTs_eq_of_spanInv cs hsi]
    have hcl : ∀ u ∈ dedupAdj (pySplitWs cs),
        u ≠ [] ∧ ∀ x ∈ u, isWs x = false :=
      fun u hu => ⟨(dedupAdj_tok_props cs u hu).1,
        (dedupAdj_tok_props cs u hu).2.1⟩
    have ht3chars : ∀ x ∈ joinSep [' '] (dedupAdj (pySplitWs cs)),
        isTerm x = false := by
      intro x hx
      rcases mem_joinSep_sub _ _ x hx with h1 | ⟨u, hu, hxu⟩
      · rw [List.mem_singleton] at h1
        rw [h1]
        decide
      · exact (h x ((dedupAdj_tok_props cs u hu).2.2 x hxu)).2
    rw [collapseWs_joinSep _ hcl]
    by_cases hnil : dedupAdj (pySplitWs cs) = []
    · rw [hnil]
      decide
    · have htrim : trimChars (joinSep [' '] (dedupAdj (pySplitWs cs))) =
          joinSep [' '] (dedupAdj (pySplitWs cs)) := by
        apply trim_eq_self
        · intro c l hcl2
          rcases List.exists_cons_of_ne_nil hnil with ⟨t0, ts0, he⟩
          exact joinSep_head_not_ws t0 ts0 (by rw [← he]; exact hcl) c l
            (by rw [← he]; exact hcl2)
        · intro c l hcl2
          rcases joinSep_ends _ hnil hcl with ⟨c2, cs2, hj2, hc2w⟩
          have he : l ++ [c] = cs2 ++ [c2] := by rw [← hcl2, hj2]
          have he2 := congrArg List.reverse he
          simp only [List.reverse_append, List.reverse_singleton,
            List.singleton_append, List.cons.injEq] at he2
          rw [he2.1]
          exact hc2w
      rw [htrim]
      show collapseDots (trimChars (collapseWs (joinSep ['.', ' ']
        (uniqueAppend (splitRunsGo isTerm false
          (joinSep [' '] (dedupAdj (pySplitWs cs)))) [])))) = _
      rw [splitRuns_no_p_eq isTerm _ ht3chars]
      have hT3ne : joinSep [' '] (dedupAdj (pySplitWs cs)) ≠ [] := by
        rcases List.exists_cons_of_ne_nil hnil with ⟨t0, ts0, he⟩
        rcases joinSep_cons_ex [' '] t0 ts0 with ⟨x, hx⟩
        rcases List.exists_cons_of_ne_nil (hcl t0 (by rw [he]; simp)).1 with
          ⟨c0, l0, hc0⟩
        rw [he, hx, hc0]
        simp
      have hcond : (!(trimChars (joinSep [' ']
          (dedupAdj (pySplitWs cs)))).isEmpty &&
          !(([] : List (List Char)).contains
            (trimChars (joinSep [' '] (dedupAdj (pySplitWs cs)))))) = true := by
        rw [htrim]
        have h1 : (joinSep [' '] (dedupAdj (pySplitWs cs))).isEmpty = false := by
          cases hx : joinSep [' '] (dedupAdj (pySplitWs cs)) with
          | nil => exact absurd hx hT3ne
          | cons a l => rfl
        rw [h1]
        rfl
      show collapseDots (trimChars (collapseWs (joinSep ['.', ' ']
        (if (!(trimChars (joinSep [' '] (dedupAdj (pySplitWs cs)))).isEmpty &&
            !(([] : List (List Char)).contains
              (trimChars (joinSep [' '] (dedupAdj (pySplitWs cs)))))) = true
          then uniqueAppend []
            ([] ++ [trimChars (joinSep [' '] (dedupAdj (pySplitWs cs)))])
          else uniqueAppend [] [])))) = _
      rw [if_pos hcond]
      show collapseDots (trimChars (collapseWs (joinSep ['.', ' ']
        [trimChars (joinSep [' '] (dedupAdj (pySplitWs cs)))]))) = _
      rw [htrim]
      show collapseDots (trimChars (collapseWs
        (joinSep [' '] (dedupAdj (pySplitWs cs))))) = _
      rw [collapseWs_joinSep _ hcl, htrim]
      show collapseDotsGo false (joinSep [' '] (dedupAdj (pySplitWs cs))) = _
      refine collapseDotsGo_no_dot false _ ?_
      intro x hx hdot
      have := ht3chars x hx
      rw [hdot] at this
      exact absurd this (by decide)

/-- Claim C4, refuting the original statement: the normalizer is not
idempotent.  On "x.ab ab q.y" the first pass yields "x. ab ab q. y" — the
sentence split at interior dots creates a new adjacent duplicate word pair
"ab ab" that the first pass's word dedup (which ran before the sentence
split) never saw — and a second pass removes it, giving "x. ab q. y". -/
theorem claim_C4_counterexample :
    clean_transcript (clean_transcript "x.ab ab q.y") ≠
      clean_transcript "x.ab ab q.y" := by decide

/-- Claim C4 (amended): the normalizer is idempotent on every input free of
angle brackets and sentence terminators ('<', '.', '!', '?'); on general
inputs idempotence can fail because the sentence stage re-splits words at
interior terminators, creating adjacencies the word-dedup pass did not
see. -/
theorem claim_C4 (s : String)
    (h : ∀ c ∈ s.data, c ≠ '<' ∧ c ≠ '.' ∧ c ≠ '!' ∧ c ≠ '?') :
    clean_transcript (clean_transcript s) = clean_transcript s := by
  have h2 : ∀ x ∈ s.data, x ≠ '<' ∧ isTerm x = false := by
    intro x hx
    rcases h x hx with ⟨h1, hd, he, hq⟩
    refine ⟨h1, ?_⟩
    unfold isTerm
    simp [hd, he, hq]
  show String.mk (cleanChars (String.mk (cleanChars s.data)).data) =
    String.mk (cleanChars s.data)
  have hdata : (String.mk (cleanChars s.data)).data = cleanChars s.data := rfl
  rw [hdata]
  congr 1
  rw [cleanChars_plain s.data h2]
  have hplain3 : ∀ x ∈ joinSep [' '] (dedupAdj (pySplitWs s.data)),
      x ≠ '<' ∧ isTerm x = false := by
    intro x hx
    rcases mem_joinSep_sub _ _ x hx with h1 | ⟨u, hu, hxu⟩
    · rw [List.mem_singleton] at h1
      rw [h1]
      exact ⟨by decide, by decide⟩
    · exact h2 x ((dedupAdj_tok_props s.data u hu).2.2 x hxu)
  rw [cleanChars_plain _ hplain3]
  rw [pySplitWs_joinSep _ (fun u hu => ⟨(dedupAdj_tok_props s.data u hu).1,
    (dedupAdj_tok_props s.data u hu).2.1⟩)]
  rw [dedupAdj_eq_self _ (dedupAdj_chain (pySplitWs s.data))]

theorem claim_C4_witness :
    (∀ c ∈ "hello  World world nice".data,
      c ≠ '<' ∧ c ≠ '.' ∧ c ≠ '!' ∧ c ≠ '?') ∧
      clean_transcript (clean_transcript "hello  World world nice") =
        clean_transcript "hello  World world nice" :=
  ⟨by decide, claim_C4 "hello  World world nice" (by decide)⟩
